import Mathlib

/-!
# VeeBoard — shallow embedding and verification

A shallow embedding of the VeeBoard Kanban application's state layer
(`Store`), live-sync echo guard (`Sync`), drag-and-drop gesture recognizer
(`Dnd`) and the import/merge algorithm (`App.importJSON`, merge branch),
together with proofs and refutations of the specification's claims.

Modelling conventions:
* ISO-8601 timestamp strings are modelled as `Option Nat` holding the parsed
  epoch value; `none` models an absent/empty (falsy) field.  `timeVal`
  mirrors the source's `timeVal(t) = t ? Date.parse(t)||0 : 0`.
* `seq` is `Option Int`: `none` models an absent field (`-Infinity` under
  `Number.isFinite` in the comparators).
* `lastChangedBy` and `due` are `String`, with `""` modelling the
  absent/falsy case (the source reads them through `x || ""`).
* JavaScript `Map` built from a column list has last-entry-wins semantics,
  modelled by `findLastIdx`-style lookups over the column list.
-/

set_option maxHeartbeats 1000000

/-- `reminder: {enabled, offsetMinutes}` object attached to a card. -/
structure Reminder where
  enabled : Bool
  offsetMinutes : Int
deriving DecidableEq, Repr

/-- A card, as produced by `Store.addCard` / the snapshot file format. -/
structure Card where
  id : String
  title : String
  description : String
  tags : List String
  due : String
  reminder : Option Reminder
  createdAt : Option Nat
  lastChanged : Option Nat
  lastChangedBy : String
  seq : Option Int
  contentChangedAt : Option Nat
  positionChangedAt : Option Nat
deriving DecidableEq, Repr

/-- A column: `{ id, title, cards, isDone, isArchive }`. -/
structure Column where
  id : String
  title : String
  cards : List Card
  isDone : Bool
  isArchive : Bool
deriving DecidableEq, Repr

/-- The board state: `{ columns: [...] }`. -/
structure Board where
  columns : List Column
deriving DecidableEq, Repr

instance : Inhabited Card :=
  ⟨⟨"", "", "", [], "", none, none, none, "", none, none, none⟩⟩

instance : Inhabited Column := ⟨⟨"", "", [], false, false⟩⟩

instance : Inhabited Board := ⟨⟨[]⟩⟩

/-- `timeVal(t) = t ? (Date.parse(t) || 0) : 0` — absent stamps count as 0. -/
def timeVal (t : Option Nat) : Nat := t.getD 0

/-- Update the element at index `i` (identity when out of range), modelling
in-place mutation of the `i`-th element of a JS array. -/
def updateAt (i : Nat) (f : α → α) : List α → List α
  | [] => []
  | a :: as =>
    match i with
    | 0 => f a :: as
    | n + 1 => a :: updateAt n f as

/-- `arr.splice(i, 0, a)` for `0 ≤ i ≤ arr.length`. -/
def insertAt (i : Nat) (a : α) : List α → List α
  | [] => [a]
  | b :: bs =>
    match i with
    | 0 => a :: b :: bs
    | n + 1 => b :: insertAt n a bs

/-- `arr.splice(i, 1)` — remove the element at index `i`. -/
def removeAt (i : Nat) : List α → List α
  | [] => []
  | a :: as =>
    match i with
    | 0 => as
    | n + 1 => a :: removeAt n as

namespace Store

/-- `Store.findColumn`: `this.state.columns.find(c => c.id === colId)`. -/
def findColumn (b : Board) (colId : String) : Option Column :=
  b.columns.find? (fun c => c.id == colId)

/-- Index of the column `Store.findColumn` would return. -/
def findColumnIdx (b : Board) (colId : String) : Option Nat :=
  b.columns.findIdx? (fun c => c.id == colId)

/-- `Store.findCard`: scan columns in order, return the first card whose id
matches together with (the index of) its column. -/
def findCardLoc (cols : List Column) (cardId : String) : Option (Nat × Card) :=
  match cols with
  | [] => none
  | c :: cs =>
    match c.cards.find? (fun k => k.id == cardId) with
    | some k => some (0, k)
    | none => (findCardLoc cs cardId).map (fun p => (p.1 + 1, p.2))

/-- The id of the column at index `i` (default column"s id when out of range). -/
def colIdAt (cols : List Column) (i : Nat) : String :=
  (cols.getD i default).id

/-- `Store.updateColumn(colId, {title, isDone})` — rename and set the done
flag; setting `isDone` clears the flag on every other column first; no-op
when the column is missing or is the archive column. -/
def updateColumn (b : Board) (colId title : String) (isDone : Bool) : Board :=
  match b.columns.findIdx? (fun c => c.id == colId) with
  | none => b
  | some i =>
    if (b.columns.getD i default).isArchive then b
    else
      let cols1 := if isDone then b.columns.map (fun c => { c with isDone := false })
                   else b.columns
      ⟨updateAt i (fun c => { c with title := title, isDone := isDone }) cols1⟩

/-- `Store.deleteColumn(colId)` — remove the column unless it is the archive
column (or missing). -/
def deleteColumn (b : Board) (colId : String) : Board :=
  match findColumn b colId with
  | none => b
  | some col =>
    if col.isArchive then b
    else ⟨b.columns.filter (fun c => !(c.id == colId))⟩

/-- `Store.moveCard(cardId, fromColId, toColId, toIndex)`.  The move stamps
`lastChanged`/`lastChangedBy`/`seq`/`positionChangedAt`; the stamp values
(`Utils.nowIso()`, `Meta.clientId`, `Meta.nextSeq()`) are passed in as
parameters `now`, `origin`, `seqv`.  Out-of-range `toIndex` appends at the
end (`if (toIndex < 0 || toIndex > toCol.cards.length) push else splice`). -/
def moveCard (b : Board) (cardId fromColId toColId : String) (toIndex : Int)
    (now : Nat) (origin : String) (seqv : Int) : Board :=
  match b.columns.findIdx? (fun c => c.id == fromColId),
        b.columns.findIdx? (fun c => c.id == toColId) with
  | some fi, some ti =>
    let fromCol := b.columns.getD fi default
    match fromCol.cards.findIdx? (fun k => k.id == cardId) with
    | none => b
    | some ci =>
      let card := fromCol.cards.getD ci default
      let card' := { card with lastChanged := some now, lastChangedBy := origin,
                               seq := some seqv, positionChangedAt := some now }
      let cols1 := updateAt fi (fun c => { c with cards := removeAt ci c.cards }) b.columns
      let tlen := (cols1.getD ti default).cards.length
      if toIndex < 0 ∨ toIndex > (tlen : Int) then
        ⟨updateAt ti (fun c => { c with cards := c.cards ++ [card'] }) cols1⟩
      else
        ⟨updateAt ti (fun c => { c with cards := insertAt toIndex.toNat card' c.cards }) cols1⟩
  | _, _ => b

/-- `columnOrder.indexOf(id)` — `-1` when absent. -/
def orderKey (order : List String) (c : Column) : Int :=
  match order.indexOf? c.id with
  | some i => (i : Int)
  | none => -1

/-- Stable insertion of `a` into a key-sorted list: `a` is placed before the
first element whose key is not smaller, so that elements earlier in the
original list precede later equal-key elements. -/
def insertByKey (key : α → Int) (a : α) : List α → List α
  | [] => [a]
  | b :: bs => if key b < key a then b :: insertByKey key a bs else a :: b :: bs

/-- Stable sort by an integer key, modelling `Array.prototype.sort` with the
comparator `(a, b) => key(a) - key(b)` (ECMAScript sort is stable, and all
stable sorts agree for a consistent comparator). -/
def sortByKey (key : α → Int) : List α → List α
  | [] => []
  | a :: as => insertByKey key a (sortByKey key as)

/-- `Store.reorderColumns(columnOrder)`:
`columns.sort((a,b) => columnOrder.indexOf(a.id) - columnOrder.indexOf(b.id))`. -/
def reorderColumns (b : Board) (order : List String) : Board :=
  ⟨sortByKey (orderKey order) b.columns⟩

/-- The archive column pushed by `Store.loadState` when none is present. -/
def archiveColumn : Column :=
  { id := "archive", title := "Archive", cards := [], isDone := false, isArchive := true }

/-- Tail of `Store.loadState`: after validation/fallback, guarantee the
presence of an archive column by appending one if missing. -/
def ensureArchive (b : Board) : Board :=
  if b.columns.any (fun c => c.isArchive) then b
  else ⟨b.columns ++ [archiveColumn]⟩

end Store

namespace Sync

/-- `Sync.muteNext(ms = 900)`: the echo-suppression deadline armed at `now`. -/
def muteNext (now : Nat) (ms : Nat := 900) : Nat := now + ms

/-- `Sync.shouldIgnore()`: `Date.now() < this.suppressEchoUntil`. -/
def shouldIgnore (suppressEchoUntil now : Nat) : Bool :=
  now < suppressEchoUntil

/-- The `Store.startRealtime` subscribe callback: drop the snapshot while the
echo window is active or when it is not an object; otherwise **replace** the
whole state with it (`this.state = incoming`). -/
def handleIncoming (suppressEchoUntil : Nat) (cur : Board)
    (incoming : Option Board) (now : Nat) : Board :=
  if shouldIgnore suppressEchoUntil now then cur
  else
    match incoming with
    | none => cur
    | some inc => inc

end Sync

namespace Merge

/-- `normTitle(s) = (s || "").toLowerCase().trim().replace(/\s+/g, " ")` —
lower-case, trim, collapse internal whitespace runs to single spaces. -/
def normTitle (s : String) : String :=
  " ".intercalate (((s.toLower.trim).split (fun c => c.isWhitespace)).filter
    (fun w => !(w == "")))

/-- Equality of `sa`/`sb` in the comparators, where a non-finite `seq` is
`-Infinity` (so two absent values are equal). -/
def seqEqB : Option Int → Option Int → Bool
  | none, none => true
  | some a, some b => a == b
  | _, _ => false

/-- `sa > sb` where a non-finite `seq` is `-Infinity`. -/
def seqGtB : Option Int → Option Int → Bool
  | some a, some b => a > b
  | some _, none => true
  | _, _ => false

/-- The timestamp component of the content key:
`max(timeVal(contentChangedAt), timeVal(lastChanged), timeVal(createdAt))`. -/
def contentTs (A : Card) : Nat :=
  max (timeVal A.contentChangedAt) (max (timeVal A.lastChanged) (timeVal A.createdAt))

/-- `isContentANewer(A, B)` — is `A`'s content key strictly newer than `B`'s. -/
def isContentANewer (A B : Card) : Bool :=
  let ta := contentTs A
  let tb := contentTs B
  if ta ≠ tb then ta > tb
  else if !(seqEqB A.seq B.seq) then seqGtB A.seq B.seq
  else B.lastChangedBy < A.lastChangedBy

/-- `isPositionANewer(A, B)` — position key comparison: `positionChangedAt`
first, generic `lastChanged` as fallback, then `seq`, then origin id. -/
def isPositionANewer (A B : Card) : Bool :=
  let ta := timeVal A.positionChangedAt
  let tb := timeVal B.positionChangedAt
  if ta ≠ tb then ta > tb
  else
    let fa := timeVal A.lastChanged
    let fb := timeVal B.lastChanged
    if fa ≠ fb then fa > fb
    else if !(seqEqB A.seq B.seq) then seqGtB A.seq B.seq
    else B.lastChangedBy < A.lastChangedBy

/-- The content-overwrite block of the merge: copy content fields
unconditionally (`tags` is always an array and `due` already a string in the
typed model) and copy each metadata stamp only when present on the incoming
card. -/
def contentOverwrite (ex inc : Card) : Card :=
  { ex with
    title := inc.title
    description := inc.description
    tags := inc.tags
    due := inc.due
    reminder := inc.reminder
    createdAt := if inc.createdAt.isSome then inc.createdAt else ex.createdAt
    lastChanged := if inc.lastChanged.isSome then inc.lastChanged else ex.lastChanged
    seq := if inc.seq.isSome then inc.seq else ex.seq
    lastChangedBy := if inc.lastChangedBy ≠ "" then inc.lastChangedBy else ex.lastChangedBy
    contentChangedAt := if inc.contentChangedAt.isSome then inc.contentChangedAt
                        else ex.contentChangedAt
    positionChangedAt := if inc.positionChangedAt.isSome then inc.positionChangedAt
                         else ex.positionChangedAt }

/-- The card value after the conditional content-overwrite step of the merge. -/
def mergedContent (ex inc : Card) : Card :=
  if isContentANewer inc ex then contentOverwrite ex inc else ex

/-- `col.cards.push(k)`. -/
def pushCard (k : Card) (c : Column) : Column :=
  { c with cards := c.cards ++ [k] }

/-- `exCol.cards = exCol.cards.filter(c => c.id !== cardId)`. -/
def removeCards (cardId : String) (c : Column) : Column :=
  { c with cards := c.cards.filter (fun k => !(k.id == cardId)) }

/-- Mutate the first card with the given id in place (position preserved). -/
def replaceFirstCard (cardId : String) (k' : Card) : List Card → List Card
  | [] => []
  | k :: ks => if k.id == cardId then k' :: ks else k :: replaceFirstCard cardId k' ks

/-- Index of the last column with the given id — `existingById.get`, a JS
`Map` built with last-entry-wins semantics. -/
def lastIdxById (cols : List Column) (cid : String) : Option Nat :=
  (cols.reverse.findIdx? (fun c => c.id == cid)).map
    (fun i => cols.length - 1 - i)

/-- Index of the last column with the given normalized title —
`existingByTitle.get(normTitle(...))`. -/
def lastIdxByTitle (cols : List Column) (t : String) : Option Nat :=
  (cols.reverse.findIdx? (fun c => normTitle c.title == t)).map
    (fun i => cols.length - 1 - i)

/-- Resolve an incoming column to its target column in the current state:
by id first, then by normalized title (mirrors both the step-2 and step-3
resolution of the merge; the `existingById`/`existingByTitle` maps always
equal the last-wins view of the current column list). -/
def resolveTarget (cols : List Column) (inc : Column) : Option Nat :=
  match lastIdxById cols inc.id with
  | some i => some i
  | none => lastIdxByTitle cols (normTitle inc.title)

/-- Merge step 2 body: push an incoming column (with its cards) when it
matches no existing column by id or normalized title. -/
def addColIfUnmatched (cols : List Column) (inc : Column) : List Column :=
  match resolveTarget cols inc with
  | some _ => cols
  | none => cols ++ [inc]

/-- Per-incoming-card merge step against the column at target index `t`:
append unknown cards, otherwise conditionally overwrite content in place and
conditionally relocate the card to the end of the target column. -/
def mergeCard (t : Nat) (cols : List Column) (inc : Card) : List Column :=
  match Store.findCardLoc cols inc.id with
  | none => updateAt t (pushCard inc) cols
  | some (ci, ex) =>
    let ex' := mergedContent ex inc
    let cols1 := updateAt ci (fun c => { c with cards := replaceFirstCard inc.id ex' c.cards }) cols
    if Store.colIdAt cols ci ≠ Store.colIdAt cols t ∧ isPositionANewer inc ex' then
      updateAt t (pushCard ex') (updateAt ci (removeCards inc.id) cols1)
    else cols1

/-- Merge step 3 body: resolve the incoming column's target and merge each of
its cards into the state (`if (!targetCol) return` safety kept). -/
def mergeColCards (cols : List Column) (inc : Column) : List Column :=
  match resolveTarget cols inc with
  | none => cols
  | some t => inc.cards.foldl (mergeCard t) cols

/-- The merge branch of `App.importJSON`: step 2 (append unmatched incoming
columns) followed by step 3 (per-card merge). -/
def mergeBoard (b : Board) (snap : Board) : Board :=
  let cols1 := snap.columns.foldl addColIfUnmatched b.columns
  ⟨snap.columns.foldl mergeColCards cols1⟩

/-- All card ids on the board, in column order. -/
def cardIds (cols : List Column) : List String :=
  cols.flatMap (fun c => c.cards.map (fun k => k.id))

end Merge

namespace Dnd

/-- `touchLongPressMs: 300` — delay before drag can start on touch. -/
def touchLongPressMs : Nat := 300

/-- `touchCancelThreshold: 10` — px of movement before long-press that
cancels a potential touch drag. -/
def touchCancelThreshold : Int := 10

/-- The `Dnd.cardDrag` candidate created by `startCardPotentialDrag`:
press-point coordinates, whether the drag has begun, and whether the pointer
is a touch/pen pointer (`e.pointerType !== "mouse"`). -/
structure CardDrag where
  startX : Int
  startY : Int
  started : Bool
  isTouch : Bool
deriving DecidableEq, Repr

/-- `startCardPotentialDrag`: arm a candidate at the press point. -/
def startCardPotentialDrag (x y : Int) (isTouch : Bool) : CardDrag :=
  { startX := x, startY := y, started := false, isTouch := isTouch }

/-- The delayed-start timer callback: `if (Dnd.cardDrag && !started) begin`. -/
def timerFire (d : Option CardDrag) : Option CardDrag :=
  match d with
  | none => none
  | some c => if !c.started then some { c with started := true } else some c

/-- Movement distance threshold: `e.pointerType === "mouse" ? 6 : 8`
(the candidate's `isTouch` holds exactly `pointerType !== "mouse"`). -/
def moveThreshold (isTouch : Bool) : Int := if isTouch then 8 else 6

/-- `onCardPotentialMove` for an event of the tracked pointer, reduced to its
effect on the candidate state: cancel an un-started touch candidate once
either axis exceeds the cancel threshold; start the drag once `hypot(dx,dy)`
exceeds the distance threshold — for non-touch pointers only (the
`Math.hypot(dx,dy) > threshold` test is expressed on squares). -/
def onCardPotentialMove (c : CardDrag) (x y : Int) : Option CardDrag :=
  if !c.started ∧ c.isTouch ∧
      ((x - c.startX).natAbs > touchCancelThreshold.toNat ∨
       (y - c.startY).natAbs > touchCancelThreshold.toNat) then
    none
  else
    let distSq := (x - c.startX) ^ 2 + (y - c.startY) ^ 2
    if distSq > moveThreshold c.isTouch ^ 2 ∧ !c.started ∧ !c.isTouch then
      some { c with started := true }
    else
      some c

end Dnd

/-- The value of a `seq` field inside the merge comparators: an absent
(non-finite) sequence number behaves as `-Infinity`. -/
def seqVal : Option Int → WithBot Int
  | none => ⊥
  | some a => (a : WithBot Int)

namespace Merge

/-- All occurrences of a card id on the board, in scan order: pairs of the
column index and the card, columns in order, cards in order within each
column.  `Store.findCardLoc` returns the head of this list. -/
def occs : List Column → String → List (Nat × Card)
  | [], _ => []
  | c :: cs, cid =>
    (c.cards.filter (fun k => k.id == cid)).map (fun k => ((0 : Nat), k))
      ++ (occs cs cid).map (fun p => (p.1 + 1, p.2))

/-- The per-card postcondition of one merge pass: the first occurrence of the
incoming card's id exists, its content is not older than the incoming
content key, and either it already sits in the target column or its position
key is not older — exactly what makes a second pass leave it unchanged. -/
def GoodCard (S : List Column) (t : Nat) (inc : Card) : Prop :=
  ∃ ci ex rest, occs S inc.id = (ci, ex) :: rest ∧
    isContentANewer inc ex = false ∧
    (Store.colIdAt S ci = Store.colIdAt S t ∨ isPositionANewer inc ex = false)

/-- The per-card precondition before the card's own merge step: every
occurrence of its id other than the first is the incoming card itself (such
extra occurrences arise only when the card's own unmatched snapshot column
was pushed with its cards in step 2). -/
def PreCard (S : List Column) (inc : Card) : Prop :=
  ∀ o ∈ (occs S inc.id).drop 1, o.2 = inc

end Merge

-- ===== Helper lemmas =====

lemma seqEqB_iff (a b : Option Int) : Merge.seqEqB a b = true ↔ seqVal a = seqVal b := by
  cases a <;> cases b <;> simp [Merge.seqEqB, seqVal]

lemma seqGtB_iff (a b : Option Int) : Merge.seqGtB a b = true ↔ seqVal b < seqVal a := by
  cases a <;> cases b <;>
    simp [Merge.seqGtB, seqVal, WithBot.bot_lt_coe, WithBot.coe_lt_coe]

-- ===== Claim theorems =====

/-- C1: during a merge, the content comparison between an incoming and an
existing card with the same id is decided by the lexicographic key
`(max(contentChangedAt, lastChanged, createdAt), seq, lastChangedBy)`:
a strictly greater timestamp wins regardless of seq, equal timestamps fall
through to the higher seq, equal timestamp and seq fall through to the
lexicographically greater origin id; and the content fields of the existing
card (title, description, tags, due, reminder) are overwritten exactly when
the incoming key is strictly greater. -/
theorem merge_content_lww_key (A B ex inc : Card) :
    (Merge.isContentANewer A B = true ↔
      (Merge.contentTs B < Merge.contentTs A ∨
        (Merge.contentTs A = Merge.contentTs B ∧
          (seqVal B.seq < seqVal A.seq ∨
            (seqVal A.seq = seqVal B.seq ∧ B.lastChangedBy < A.lastChangedBy))))) ∧
    (Merge.mergedContent ex inc).title
        = (if Merge.isContentANewer inc ex then inc.title else ex.title) ∧
    (Merge.mergedContent ex inc).description
        = (if Merge.isContentANewer inc ex then inc.description else ex.description) ∧
    (Merge.mergedContent ex inc).tags
        = (if Merge.isContentANewer inc ex then inc.tags else ex.tags) ∧
    (Merge.mergedContent ex inc).due
        = (if Merge.isContentANewer inc ex then inc.due else ex.due) ∧
    (Merge.mergedContent ex inc).reminder
        = (if Merge.isContentANewer inc ex then inc.reminder else ex.reminder) := by
  constructor
  · simp only [Merge.isContentANewer]
    by_cases hts : Merge.contentTs A = Merge.contentTs B
    · rw [if_neg (by simp [hts])]
      by_cases hsq : Merge.seqEqB A.seq B.seq = true
      · rw [if_neg (by simp [hsq])]
        have hv : seqVal A.seq = seqVal B.seq := (seqEqB_iff _ _).mp hsq
        simp [hts, hv, lt_irrefl]
      · rw [if_pos (by simp [hsq])]
        have h1 : seqVal A.seq ≠ seqVal B.seq := fun h => hsq ((seqEqB_iff _ _).mpr h)
        rw [seqGtB_iff]
        simp [hts, h1, lt_irrefl]
    · rw [if_pos hts]
      simp [hts]
  · by_cases h : Merge.isContentANewer inc ex <;>
      simp [Merge.mergedContent, h, Merge.contentOverwrite]

/-- C9: `moveCard` with an unknown source column, unknown target column, or a
card id not present in the source column is a silent no-op: the board is
returned unchanged (and, being a total function, it cannot throw). -/
theorem moveCard_silent_noop (b : Board) (cardId fromColId toColId : String)
    (toIndex : Int) (now : Nat) (origin : String) (seqv : Int)
    (h : b.columns.findIdx? (fun c => c.id == fromColId) = none ∨
         b.columns.findIdx? (fun c => c.id == toColId) = none ∨
         ∃ fi, b.columns.findIdx? (fun c => c.id == fromColId) = some fi ∧
           (b.columns.getD fi default).cards.findIdx? (fun k => k.id == cardId) = none) :
    Store.moveCard b cardId fromColId toColId toIndex now origin seqv = b := by
  unfold Store.moveCard
  rcases h with h | h | ⟨fi, hfi, hcard⟩
  · rw [h]
  · rw [h]
    cases b.columns.findIdx? (fun c => c.id == fromColId) <;> rfl
  · rw [hfi]
    cases hto : b.columns.findIdx? (fun c => c.id == toColId) with
    | none => rfl
    | some ti =>
      simp only [List.getD_eq_getElem?_getD] at hcard
      simp [hcard]

/-- Witness for C9 at a concrete input: moving a card out of a column id that
does not exist on the demo board leaves the board unchanged. -/
theorem moveCard_silent_noop_witness :
    Store.moveCard ⟨[⟨"a", "A", [], false, false⟩]⟩ "x" "missing" "a" 0 5 "me" 7
      = ⟨[⟨"a", "A", [], false, false⟩]⟩ :=
  moveCard_silent_noop _ _ _ _ _ _ _ _ (Or.inl (by decide))

/-- C3 counterexample: with the mute window armed by a save at t = 0, a
snapshot delivered at t+500ms is discarded (that half of the claim holds),
but the snapshot delivered at t+1000ms is adopted wholesale
(`this.state = incoming`) — it is **not** merged with the remote-merge
algorithm: here the merge of the board and the snapshot would keep card "x",
while the subscribe callback replaces the board with the cardless snapshot. -/
theorem subscribe_replaces_counterexample :
    Sync.handleIncoming (Sync.muteNext 0)
        ⟨[⟨"a", "A", [⟨"x", "T", "", [], "", none, none, none, "", none, none, none⟩],
           false, false⟩]⟩
        (some ⟨[⟨"a", "A", [], false, false⟩]⟩) 500
      = ⟨[⟨"a", "A", [⟨"x", "T", "", [], "", none, none, none, "", none, none, none⟩],
           false, false⟩]⟩ ∧
    Sync.handleIncoming (Sync.muteNext 0)
        ⟨[⟨"a", "A", [⟨"x", "T", "", [], "", none, none, none, "", none, none, none⟩],
           false, false⟩]⟩
        (some ⟨[⟨"a", "A", [], false, false⟩]⟩) 1000
      = ⟨[⟨"a", "A", [], false, false⟩]⟩ ∧
    Merge.mergeBoard
        ⟨[⟨"a", "A", [⟨"x", "T", "", [], "", none, none, none, "", none, none, none⟩],
           false, false⟩]⟩
        ⟨[⟨"a", "A", [], false, false⟩]⟩
      ≠ ⟨[⟨"a", "A", [], false, false⟩]⟩ := by
  refine ⟨by decide, by decide, by decide⟩

/-- C3 (amended): a local save at time t arms a 900ms mute window; a snapshot
delivered through the subscribe callback at t+500ms (inside the window) is
discarded without changing the board, and a snapshot delivered at t+1000ms
(after the window) is accepted and **replaces** the board state wholesale
(the subscribe path performs no merge). -/
theorem echo_suppression_window (t : Nat) (b s : Board) :
    Sync.handleIncoming (Sync.muteNext t) b (some s) (t + 500) = b ∧
    Sync.handleIncoming (Sync.muteNext t) b (some s) (t + 1000) = s := by
  constructor
  · have h : Sync.shouldIgnore (Sync.muteNext t) (t + 500) = true := by
      simp [Sync.shouldIgnore, Sync.muteNext]
    simp [Sync.handleIncoming, h]
  · have h : Sync.shouldIgnore (Sync.muteNext t) (t + 1000) = false := by
      simp [Sync.shouldIgnore, Sync.muteNext]
    simp [Sync.handleIncoming, h]

/-- C7 counterexample: a touch press is armed at (0,0); the pointer then moves
9px horizontally — beyond the ≈8px distance threshold but within the 10px
cancel threshold.  The claim says this movement transitions the gesture to
Dragging; in the code the distance test only starts non-touch drags, so the
candidate stays armed and un-started. -/
theorem touch_move_does_not_start_counterexample :
    Dnd.onCardPotentialMove (Dnd.startCardPotentialDrag 0 0 true) 9 0
        = some (Dnd.startCardPotentialDrag 0 0 true) ∧
    (Dnd.startCardPotentialDrag 0 0 true).started = false := by
  refine ⟨by decide, by decide⟩

/-- C7 (amended): for a touch press in the Armed state, the gesture
transitions to Dragging **only** when the 300ms delayed-start timer fires;
movement exceeding the 10px cancel threshold on either axis before the timer
discards the candidate entirely, and any movement within the cancel
threshold leaves the candidate armed and un-started (in particular movement
beyond ≈8px never starts a touch drag). -/
theorem touch_drag_requires_longpress (c : Dnd.CardDrag)
    (htouch : c.isTouch = true) (hstart : c.started = false) :
    Dnd.timerFire (some c) = some { c with started := true } ∧
    (∀ x y : Int, ((x - c.startX).natAbs > 10 ∨ (y - c.startY).natAbs > 10) →
        Dnd.onCardPotentialMove c x y = none) ∧
    (∀ x y : Int, (x - c.startX).natAbs ≤ 10 → (y - c.startY).natAbs ≤ 10 →
        Dnd.onCardPotentialMove c x y = some c) := by
  refine ⟨?_, ?_, ?_⟩
  · simp [Dnd.timerFire, hstart]
  · intro x y h
    unfold Dnd.onCardPotentialMove
    rw [if_pos]
    exact ⟨by simp [hstart], htouch, by simpa [Dnd.touchCancelThreshold] using h⟩
  · intro x y hx hy
    unfold Dnd.onCardPotentialMove
    rw [if_neg, if_neg]
    · rintro ⟨-, -, hT⟩
      simp [htouch] at hT
    · rintro ⟨-, hcancel⟩
      rcases hcancel.2 with h | h
      · simp [Dnd.touchCancelThreshold] at h
        omega
      · simp [Dnd.touchCancelThreshold] at h
        omega

/-- Witness for C7's amended theorem at a concrete armed touch candidate:
the timer starts the drag, a 12px move cancels, and a 9px move keeps the
candidate armed. -/
theorem touch_drag_requires_longpress_witness :
    Dnd.timerFire (some (Dnd.startCardPotentialDrag 0 0 true))
        = some { Dnd.startCardPotentialDrag 0 0 true with started := true } ∧
    Dnd.onCardPotentialMove (Dnd.startCardPotentialDrag 0 0 true) 12 0 = none :=
  ⟨(touch_drag_requires_longpress _ rfl rfl).1,
   (touch_drag_requires_longpress _ rfl rfl).2.1 12 0 (by decide)⟩

/-- Updating one in-range element with a property-establishing function in a
list where the property holds nowhere yields exactly one satisfying element. -/
lemma countP_updateAt_one (p : α → Bool) (f : α → α) (hpf : ∀ a, p (f a) = true) :
    ∀ (l : List α) (i : Nat), i < l.length → (∀ a ∈ l, p a = false) →
      (updateAt i f l).countP p = 1 := by
  intro l
  induction l with
  | nil => intro i hi _; simp at hi
  | cons a as ih =>
    intro i hi hall
    match i with
    | 0 =>
      simp only [updateAt, List.countP_cons, hpf a, if_pos]
      have : as.countP p = 0 := List.countP_eq_zero.mpr (fun x hx => by
        simp [hall x (List.mem_cons_of_mem a hx)])
      simp [this, hpf a]
    | n + 1 =>
      simp only [updateAt, List.countP_cons]
      have h0 : p a = false := hall a (List.mem_cons_self a as)
      have := ih n (by simpa using hi) (fun x hx => hall x (List.mem_cons_of_mem a hx))
      simp [this, h0]

/-- C8: deleting the archive column is a no-op, and every load ends with an
archive column present (one is appended when the loaded state lacks it). -/
theorem archive_permanence :
    (∀ (b : Board) (cid : String) (col : Column),
        Store.findColumn b cid = some col → col.isArchive = true →
        Store.deleteColumn b cid = b) ∧
    (∀ b : Board, ∃ c ∈ (Store.ensureArchive b).columns, c.isArchive = true) := by
  constructor
  · intro b cid col hfind harch
    unfold Store.deleteColumn
    rw [hfind]
    simp [harch]
  · intro b
    unfold Store.ensureArchive
    by_cases h : b.columns.any (fun c => c.isArchive) = true
    · rw [if_pos h]
      rcases List.any_eq_true.mp h with ⟨c, hc, hcA⟩
      exact ⟨c, hc, by simpa using hcA⟩
    · rw [if_neg h]
      exact ⟨Store.archiveColumn, by simp, rfl⟩

/-- Witness for C8 at concrete inputs: deleting the archive column of a
one-column board changes nothing, and loading an empty column list yields an
archive column. -/
theorem archive_permanence_witness :
    Store.deleteColumn ⟨[⟨"archive", "Archive", [], false, true⟩]⟩ "archive"
        = ⟨[⟨"archive", "Archive", [], false, true⟩]⟩ ∧
    ∃ c ∈ (Store.ensureArchive ⟨[]⟩).columns, c.isArchive = true :=
  ⟨archive_permanence.1 _ "archive" ⟨"archive", "Archive", [], false, true⟩ rfl rfl,
   archive_permanence.2 ⟨[]⟩⟩

/-- C6 counterexample: on a board that already carries two done columns, a
`renameColumn(..., isDone=true)` call naming an id that exists on no column
is a no-op, so afterwards two columns still have `isDone = true` — the claim
quantifies over every board state and every column id, so it fails. -/
theorem renameColumn_done_counterexample :
    (Store.updateColumn ⟨[⟨"a", "A", [], true, false⟩, ⟨"b", "B", [], true, false⟩]⟩
        "z" "t" true).columns.countP (fun c => c.isDone) = 2 := by
  decide

/-- C6 (amended): after a `renameColumn` call that sets `isDone = true` and
names an id whose first matching column exists and is not the archive
column, exactly one column on the board has `isDone = true`. -/
theorem renameColumn_single_done (b : Board) (colId title : String) (i : Nat)
    (hidx : b.columns.findIdx? (fun c => c.id == colId) = some i)
    (harch : (b.columns.getD i default).isArchive = false) :
    (Store.updateColumn b colId title true).columns.countP (fun c => c.isDone) = 1 := by
  unfold Store.updateColumn
  simp only [hidx]
  rw [if_neg (by simp [← List.getD_eq_getElem?_getD, harch])]
  have hlen : i < b.columns.length :=
    (List.findIdx?_eq_some_iff_getElem.mp hidx).fst
  simp only [if_true]
  refine countP_updateAt_one (fun (c : Column) => c.isDone)
    (fun c => { c with title := title, isDone := true }) (fun a => rfl) _ i
    (by simpa using hlen) ?_
  intro a ha
  rcases List.mem_map.mp ha with ⟨c, _, rfl⟩
  rfl

/-- Witness for C6's amended theorem: renaming column "a" of a two-column
board (the other column already done) with `isDone = true` leaves exactly
one done column. -/
theorem renameColumn_single_done_witness :
    (Store.updateColumn ⟨[⟨"a", "A", [], false, false⟩, ⟨"b", "B", [], true, false⟩]⟩
        "a" "T" true).columns.countP (fun c => c.isDone) = 1 :=
  renameColumn_single_done _ "a" "T" 0 (by decide) (by decide)

/-- Inserting at the length of a list appends at its end. -/
lemma insertAt_length_eq_append (a : α) :
    ∀ l : List α, insertAt l.length a l = l ++ [a] := by
  intro l
  induction l with
  | nil => rfl
  | cons b bs ih => simpa [insertAt] using ih

/-- `updateAt` only looks at the element at the updated index. -/
lemma updateAt_congr [Inhabited α] (f g : α → α) :
    ∀ (l : List α) (i : Nat), f (l.getD i default) = g (l.getD i default) →
      updateAt i f l = updateAt i g l := by
  intro l
  induction l with
  | nil => intro i _; simp [updateAt]
  | cons a as ih =>
    intro i h
    match i with
    | 0 => simpa [updateAt, List.getD] using h
    | n + 1 =>
      simp only [updateAt, List.cons.injEq, true_and]
      exact ih n (by simpa [List.getD] using h)

/-- C5 counterexample: with both columns present and the card found, a call
with `toIndex = -1` appends the card at the **end** of the target column
(index 1 here), not at position 0 as clamping into `[0, len]` would give. -/
theorem moveCard_negative_index_counterexample :
    (Store.moveCard
        ⟨[⟨"a", "A", [⟨"x", "X", "", [], "", none, none, none, "", none, none, none⟩],
            false, false⟩,
          ⟨"b", "B", [⟨"y", "Y", "", [], "", none, none, none, "", none, none, none⟩],
            false, false⟩]⟩
        "x" "a" "b" (-1) 5 "me" 7).columns.map (fun c => c.cards.map (fun k => k.id))
      = [[], ["y", "x"]] ∧
    ¬((Store.moveCard
        ⟨[⟨"a", "A", [⟨"x", "X", "", [], "", none, none, none, "", none, none, none⟩],
            false, false⟩,
          ⟨"b", "B", [⟨"y", "Y", "", [], "", none, none, none, "", none, none, none⟩],
            false, false⟩]⟩
        "x" "a" "b" (-1) 5 "me" 7).columns.map (fun c => c.cards.map (fun k => k.id))
      = [[], ["x", "y"]]) := by
  refine ⟨by decide, by decide⟩

/-- C5 (amended): when both columns exist and the card is found in the source
column, `moveCard` removes the card from the source sequence and inserts the
re-stamped card into the target sequence at `toIndex` when
`0 ≤ toIndex ≤ len(target)` and at the **end** of the target sequence when
`toIndex` is negative or beyond the target length; the operation is a total
function, so it never throws. -/
theorem moveCard_clamps (b : Board) (cardId fromColId toColId : String)
    (toIndex : Int) (now : Nat) (origin : String) (seqv : Int)
    (fi ti ci : Nat)
    (hf : b.columns.findIdx? (fun c => c.id == fromColId) = some fi)
    (ht : b.columns.findIdx? (fun c => c.id == toColId) = some ti)
    (hc : (b.columns.getD fi default).cards.findIdx? (fun k => k.id == cardId) = some ci) :
    Store.moveCard b cardId fromColId toColId toIndex now origin seqv =
      (let card := (b.columns.getD fi default).cards.getD ci default
      let card' := { card with lastChanged := some now, lastChangedBy := origin,
                               seq := some seqv, positionChangedAt := some now }
      let cols1 := updateAt fi (fun c => { c with cards := removeAt ci c.cards }) b.columns
      let tlen := (cols1.getD ti default).cards.length
      let pos := if 0 ≤ toIndex ∧ toIndex ≤ (tlen : Int) then toIndex.toNat else tlen
      (⟨updateAt ti (fun c => { c with cards := insertAt pos card' c.cards }) cols1⟩ : Board)) := by
  unfold Store.moveCard
  split
  case _ fi2 ti2 hf2 ht2 =>
    rw [hf2] at hf
    rw [ht2] at ht
    cases hf
    cases ht
    simp only [hc]
    by_cases h : toIndex < 0 ∨
        toIndex > ((updateAt fi (fun c => { c with cards := removeAt ci c.cards })
          b.columns).getD ti default).cards.length
    · rw [if_pos h, if_neg (by omega)]
      refine congrArg Board.mk ?_
      refine updateAt_congr _ _ _ ti ?_
      rw [← insertAt_length_eq_append]
    · rw [if_neg h, if_pos (by omega)]
  case _ hbad =>
    exact (hbad fi ti hf ht).elim

/-- Witness for C5's amended theorem: moving card "x" from column "a" to
position 0 of column "b" on a concrete two-column board. -/
theorem moveCard_clamps_witness :
    Store.moveCard
        ⟨[⟨"a", "A", [⟨"x", "X", "", [], "", none, none, none, "", none, none, none⟩],
            false, false⟩,
          ⟨"b", "B", [], false, false⟩]⟩
        "x" "a" "b" 0 5 "me" 7 =
      (let card := ((⟨[⟨"a", "A",
            [⟨"x", "X", "", [], "", none, none, none, "", none, none, none⟩],
            false, false⟩, ⟨"b", "B", [], false, false⟩]⟩ : Board).columns.getD 0
              default).cards.getD 0 default
      let card' := { card with lastChanged := some (5 : Nat), lastChangedBy := "me",
                               seq := some (7 : Int), positionChangedAt := some (5 : Nat) }
      let cols1 := updateAt 0 (fun c => { c with cards := removeAt 0 c.cards })
        (⟨[⟨"a", "A", [⟨"x", "X", "", [], "", none, none, none, "", none, none, none⟩],
            false, false⟩, ⟨"b", "B", [], false, false⟩]⟩ : Board).columns
      let tlen := (cols1.getD 1 default).cards.length
      let pos := if 0 ≤ (0 : Int) ∧ (0 : Int) ≤ (tlen : Int) then (0 : Int).toNat else tlen
      (⟨updateAt 1 (fun c => { c with cards := insertAt pos card' c.cards }) cols1⟩ : Board)) :=
  moveCard_clamps _ "x" "a" "b" 0 5 "me" 7 0 1 0 (by decide) (by decide) (by decide)

lemma mem_insertByKey (key : α → Int) (a x : α) :
    ∀ l : List α, x ∈ Store.insertByKey key a l ↔ x = a ∨ x ∈ l := by
  intro l
  induction l with
  | nil => simp [Store.insertByKey]
  | cons b bs ih =>
    by_cases h : key b < key a
    · simp only [Store.insertByKey, if_pos h, List.mem_cons, ih]
      tauto
    · simp only [Store.insertByKey, if_neg h, List.mem_cons]

lemma mem_sortByKey (key : α → Int) (x : α) :
    ∀ l : List α, x ∈ Store.sortByKey key l ↔ x ∈ l := by
  intro l
  induction l with
  | nil => simp [Store.sortByKey]
  | cons b bs ih =>
    simp [Store.sortByKey, mem_insertByKey, ih]

lemma insertByKey_of_not_lt (key : α → Int) (a : α) (l : List α)
    (h : ∀ b ∈ l, ¬(key b < key a)) :
    Store.insertByKey key a l = a :: l := by
  cases l with
  | nil => rfl
  | cons b bs =>
    simp only [Store.insertByKey, if_neg (h b (List.mem_cons_self b bs))]

lemma insertByKey_append_of_lt (key : α → Int) (a : α) :
    ∀ (l1 l2 : List α), (∀ b ∈ l1, key b < key a) →
      Store.insertByKey key a (l1 ++ l2) = l1 ++ Store.insertByKey key a l2 := by
  intro l1
  induction l1 with
  | nil => intro l2 _; rfl
  | cons b bs ih =>
    intro l2 h
    simp only [List.cons_append, Store.insertByKey,
      if_pos (h b (List.mem_cons_self b bs))]
    exact congrArg _ (ih l2 (fun x hx => h x (List.mem_cons_of_mem b hx)))

lemma pairwise_insertByKey (key : α → Int) (a : α) :
    ∀ l : List α, l.Pairwise (fun x y => key x ≤ key y) →
      (Store.insertByKey key a l).Pairwise (fun x y => key x ≤ key y) := by
  intro l
  induction l with
  | nil => intro _; simp [Store.insertByKey]
  | cons b bs ih =>
    intro hp
    rcases List.pairwise_cons.mp hp with ⟨hb, hbs⟩
    by_cases h : key b < key a
    · rw [Store.insertByKey, if_pos h]
      refine List.pairwise_cons.mpr ⟨?_, ih hbs⟩
      intro x hx
      rcases (mem_insertByKey key a x bs).mp hx with rfl | hx
      · exact le_of_lt h
      · exact hb x hx
    · rw [Store.insertByKey, if_neg h]
      refine List.pairwise_cons.mpr ⟨?_, hp⟩
      intro x hx
      rcases List.mem_cons.mp hx with rfl | hx
      · omega
      · exact le_trans (by omega) (hb x hx)

lemma sortByKey_pairwise (key : α → Int) :
    ∀ l : List α, (Store.sortByKey key l).Pairwise (fun x y => key x ≤ key y) := by
  intro l
  induction l with
  | nil => simp [Store.sortByKey]
  | cons b bs ih => exact pairwise_insertByKey key b _ ih

/-- A stable sort whose low-key elements all share the minimal key `-1`
splits as: the low-key elements in original order, then the sorted rest. -/
lemma sortByKey_split (key : α → Int) (p : α → Bool)
    (hlow : ∀ x, p x = true → key x = -1) (hhigh : ∀ x, p x = false → 0 ≤ key x) :
    ∀ l : List α, Store.sortByKey key l
      = l.filter p ++ Store.sortByKey key (l.filter (fun x => !(p x))) := by
  intro l
  induction l with
  | nil => rfl
  | cons a as ih =>
    by_cases pa : p a = true
    · rw [Store.sortByKey, ih, List.filter_cons_of_pos pa,
        List.filter_cons_of_neg (by simp [pa])]
      refine insertByKey_of_not_lt key a _ ?_
      intro b hb
      rcases List.mem_append.mp hb with hb | hb
      · have := hlow b (List.of_mem_filter hb)
        rw [this, hlow a pa]
        omega
      · have hbm := (mem_sortByKey key b _).mp hb
        have : p b = false := by simpa using List.of_mem_filter hbm
        have := hhigh b this
        rw [hlow a pa]
        omega
    · have pa' : p a = false := by simpa using pa
      rw [Store.sortByKey, ih, List.filter_cons_of_neg (by simp [pa']),
        List.filter_cons_of_pos (by simp [pa'])]
      rw [insertByKey_append_of_lt key a _ _ ?side]
      case side =>
        intro b hb
        have := hlow b (List.of_mem_filter hb)
        have := hhigh a pa'
        omega
      rfl

/-- C4 counterexample: on a board with columns `a`, `b`, reordering with the
id list `["a"]` puts the absent column `b` **first** (its `indexOf` key is
`-1`), not at the end as the claim states. -/
theorem reorderColumns_absent_counterexample :
    (Store.reorderColumns ⟨[⟨"a", "A", [], false, false⟩, ⟨"b", "B", [], false, false⟩]⟩
        ["a"]).columns.map (fun c => c.id) = ["b", "a"] ∧
    ¬((Store.reorderColumns ⟨[⟨"a", "A", [], false, false⟩, ⟨"b", "B", [], false, false⟩]⟩
        ["a"]).columns.map (fun c => c.id) = ["a", "b"]) := by
  refine ⟨by decide, by decide⟩

/-- C4 (amended): `reorderColumns` stably sorts the columns by their position
in the given id list, with every column whose id is absent from the list
(comparator key `-1`) placed at the **beginning** of the board in unchanged
relative order, followed by the present columns stably sorted by position;
the resulting column sequence is sorted by the comparator key throughout. -/
theorem reorderColumns_sorts (b : Board) (order : List String) :
    (Store.reorderColumns b order).columns =
      b.columns.filter (fun c => (List.indexOf? c.id order).isNone)
        ++ Store.sortByKey (Store.orderKey order)
            (b.columns.filter (fun c => (List.indexOf? c.id order).isSome)) ∧
    ((Store.reorderColumns b order).columns).Pairwise
      (fun c d => Store.orderKey order c ≤ Store.orderKey order d) := by
  constructor
  · unfold Store.reorderColumns
    have h := sortByKey_split (Store.orderKey order)
      (fun c => (List.indexOf? c.id order).isNone)
      (fun x hx => by
        simp only [Option.isNone_iff_eq_none] at hx
        simp [Store.orderKey, hx])
      (fun x hx => by
        rcases Option.isSome_iff_exists.mp (by simpa using hx) with ⟨i, hi⟩
        simp [Store.orderKey, hi])
      b.columns
    have hfilters : b.columns.filter (fun x => !(List.indexOf? x.id order).isNone)
        = b.columns.filter (fun c => (List.indexOf? c.id order).isSome) :=
      List.filter_congr (fun c _ => by cases List.indexOf? c.id order <;> rfl)
    rw [h, hfilters]
  · exact sortByKey_pairwise _ _

namespace Merge

lemma find?_eq_head?_filter (p : α → Bool) :
    ∀ l : List α, l.find? p = (l.filter p).head? := by
  intro l
  induction l with
  | nil => rfl
  | cons a as ih =>
    by_cases h : p a
    · rw [List.find?_cons_of_pos _ h, List.filter_cons_of_pos h]
      rfl
    · rw [List.find?_cons_of_neg _ (by simpa using h),
        List.filter_cons_of_neg (by simpa using h), ih]

lemma occs_nil (cid : String) : occs [] cid = [] := rfl

lemma occs_cons (c : Column) (cs : List Column) (cid : String) :
    occs (c :: cs) cid =
      (c.cards.filter (fun k => k.id == cid)).map (fun k => ((0 : Nat), k))
        ++ (occs cs cid).map (fun p => (p.1 + 1, p.2)) := rfl

lemma findCardLoc_eq_head (cid : String) :
    ∀ cols : List Column, Store.findCardLoc cols cid = (occs cols cid).head? := by
  intro cols
  induction cols with
  | nil => rfl
  | cons c cs ih =>
    rw [Store.findCardLoc, occs_cons, find?_eq_head?_filter]
    cases hf : (c.cards.filter (fun k => k.id == cid)) with
    | nil => simp [ih, List.head?_map]
    | cons k ks => simp

lemma mem_occs_id (cid : String) :
    ∀ (cols : List Column) (o : Nat × Card), o ∈ occs cols cid → o.2.id = cid := by
  intro cols
  induction cols with
  | nil => intro o h; simp [occs_nil] at h
  | cons c cs ih =>
    intro o h
    rw [occs_cons] at h
    rcases List.mem_append.mp h with h | h
    · rcases List.mem_map.mp h with ⟨k, hk, rfl⟩
      simpa using (List.of_mem_filter hk)
    · rcases List.mem_map.mp h with ⟨p, hp, rfl⟩
      exact ih p hp

lemma occs_append (cid : String) :
    ∀ l1 l2 : List Column, occs (l1 ++ l2) cid
      = occs l1 cid ++ (occs l2 cid).map (fun p => (p.1 + l1.length, p.2)) := by
  intro l1
  induction l1 with
  | nil => intro l2; simp [occs_nil]
  | cons c l1 ih =>
    intro l2
    rw [List.cons_append, occs_cons, ih l2, occs_cons]
    have hmm : ∀ (L : List (Nat × Card)) (n : Nat),
        (L.map (fun p => (p.1 + n, p.2))).map (fun p => (p.1 + 1, p.2))
          = L.map (fun p => (p.1 + (n + 1), p.2)) := by
      intro L n
      rw [List.map_map]
      exact List.map_congr_left (fun p _ => by simp [Nat.add_assoc])
    simp only [List.map_append, List.append_assoc, List.length_cons, hmm]

lemma filter_replaceFirst (cid : String) (k' : Card) (hk' : k'.id = cid) :
    ∀ (l : List Card) (k : Card) (ks : List Card),
      l.filter (fun x => x.id == cid) = k :: ks →
      (replaceFirstCard cid k' l).filter (fun x => x.id == cid) = k' :: ks := by
  intro l
  induction l with
  | nil => intro k ks h; simp at h
  | cons a as ih =>
    intro k ks h
    by_cases ha : a.id = cid
    · rw [List.filter_cons_of_pos (by simp [ha])] at h
      rw [replaceFirstCard, if_pos (by simp [ha]),
        List.filter_cons_of_pos (by simp [hk'])]
      exact congrArg _ (List.cons.inj h).2
    · rw [List.filter_cons_of_neg (by simp [ha])] at h
      rw [replaceFirstCard, if_neg (by simp [ha]),
        List.filter_cons_of_neg (by simp [ha])]
      exact ih k ks h

lemma filter_replaceFirst_other (cid cid' : String) (k' : Card) (hk' : k'.id = cid)
    (hne : cid' ≠ cid) :
    ∀ l : List Card,
      (replaceFirstCard cid k' l).filter (fun x => x.id == cid')
        = l.filter (fun x => x.id == cid') := by
  intro l
  induction l with
  | nil => rfl
  | cons a as ih =>
    by_cases ha : a.id = cid
    · rw [replaceFirstCard, if_pos (by simp [ha]),
        List.filter_cons_of_neg (by simp [hk']; exact fun h => hne h.symm),
        List.filter_cons_of_neg (by simp [ha]; exact fun h => hne h.symm)]
    · rw [replaceFirstCard, if_neg (by simp [ha])]
      by_cases ha' : a.id = cid'
      · rw [List.filter_cons_of_pos (by simp [ha']),
          List.filter_cons_of_pos (by simp [ha'])]
        exact congrArg _ ih
      · rw [List.filter_cons_of_neg (by simp [ha']),
          List.filter_cons_of_neg (by simp [ha'])]
        exact ih

lemma filter_removeCards_self (cid : String) (l : List Card) :
    (l.filter (fun k => !(k.id == cid))).filter (fun x => x.id == cid) = [] := by
  rw [List.filter_filter]
  refine List.filter_eq_nil_iff.mpr ?_
  intro a _
  by_cases h : a.id = cid <;> simp [h]

lemma filter_removeCards_other (cid cid' : String) (hne : cid' ≠ cid) (l : List Card) :
    (l.filter (fun k => !(k.id == cid))).filter (fun x => x.id == cid')
      = l.filter (fun x => x.id == cid') := by
  rw [List.filter_filter]
  refine List.filter_congr ?_
  intro a _
  by_cases h : a.id = cid'
  · simp [h, hne]
  · simp [h]

lemma occs_updateAt_of_filter_eq (cid : String) (f : Column → Column)
    (h : ∀ c : Column, (f c).cards.filter (fun x => x.id == cid)
        = c.cards.filter (fun x => x.id == cid)) :
    ∀ (cols : List Column) (i : Nat),
      occs (updateAt i f cols) cid = occs cols cid := by
  intro cols
  induction cols with
  | nil => intro i; simp [updateAt]
  | cons c cs ih =>
    intro i
    match i with
    | 0 => rw [updateAt, occs_cons, occs_cons, h c]
    | n + 1 => rw [updateAt, occs_cons, occs_cons, ih n]

lemma occs_updateAt_push (cid : String) (k : Card) (hk : k.id = cid) :
    ∀ (cols : List Column) (t : Nat), t < cols.length →
      (∀ o ∈ occs cols cid, o.1 = t) →
      occs (updateAt t (pushCard k) cols) cid = occs cols cid ++ [(t, k)] := by
  intro cols
  induction cols with
  | nil => intro t ht _; simp at ht
  | cons c cs ih =>
    intro t ht hall
    match t with
    | 0 =>
      have hcs : occs cs cid = [] := by
        cases h2 : occs cs cid with
        | nil => rfl
        | cons p ps =>
          have : ((p.1 + 1, p.2) : Nat × Card) ∈ occs (c :: cs) cid := by
            rw [occs_cons, h2]
            simp
          have := hall _ this
          simp at this
      rw [updateAt, occs_cons, occs_cons, hcs]
      show ((pushCard k c).cards.filter (fun x => x.id == cid)).map (fun k => ((0:Nat), k))
          ++ [] = _
      rw [pushCard]
      show ((c.cards ++ [k]).filter (fun x => x.id == cid)).map (fun k => ((0:Nat), k))
          ++ [] = _
      rw [List.filter_append, List.filter_cons_of_pos (by simp [hk])]
      simp
    | n + 1 =>
      have hc : c.cards.filter (fun x => x.id == cid) = [] := by
        cases h2 : c.cards.filter (fun x => x.id == cid) with
        | nil => rfl
        | cons p ps =>
          have : ((0, p) : Nat × Card) ∈ occs (c :: cs) cid := by
            rw [occs_cons, h2]
            simp
          have := hall _ this
          simp at this
      have hall' : ∀ o ∈ occs cs cid, o.1 = n := by
        intro o ho
        have : ((o.1 + 1, o.2) : Nat × Card) ∈ occs (c :: cs) cid := by
          rw [occs_cons]
          refine List.mem_append.mpr (Or.inr ?_)
          exact List.mem_map.mpr ⟨o, ho, rfl⟩
        have := hall _ this
        simp at this
        omega
      rw [updateAt, occs_cons, occs_cons, hc, ih n (by simpa using ht) hall']
      simp

lemma occs_updateAt_replaceFirst (cid : String) (k' : Card) (hk' : k'.id = cid) :
    ∀ (cols : List Column) (ci : Nat) (ex : Card) (rest : List (Nat × Card)),
      occs cols cid = (ci, ex) :: rest →
      occs (updateAt ci
          (fun c => { c with cards := replaceFirstCard cid k' c.cards }) cols) cid
        = (ci, k') :: rest := by
  intro cols
  induction cols with
  | nil => intro ci ex rest h; simp [occs_nil] at h
  | cons c cs ih =>
    intro ci ex rest h
    cases hf : c.cards.filter (fun x => x.id == cid) with
    | cons k ks =>
      rw [occs_cons, hf] at h
      simp only [List.map_cons, List.cons_append] at h
      rcases List.cons.inj h with ⟨h1, h2⟩
      rcases Prod.mk.inj h1 with ⟨h1a, h1b⟩
      subst h1a
      rw [updateAt, occs_cons]
      show ((replaceFirstCard cid k' c.cards).filter (fun x => x.id == cid)).map
          (fun k => ((0:Nat), k)) ++ (occs cs cid).map (fun p => (p.1 + 1, p.2)) = _
      rw [filter_replaceFirst cid k' hk' c.cards k ks hf]
      rw [← h2]
      simp
    | nil =>
      rw [occs_cons, hf] at h
      simp only [List.map_nil, List.nil_append] at h
      cases h2 : occs cs cid with
      | nil => rw [h2] at h; simp at h
      | cons p ps =>
        rw [h2] at h
        simp only [List.map_cons] at h
        rcases List.cons.inj h with ⟨h1, h3⟩
        rcases Prod.mk.inj h1 with ⟨h1a, h1b⟩
        match ci, h1a with
        | _, rfl =>
          rw [updateAt, occs_cons, hf, ih p.1 p.2 ps (by rw [h2]), ← h3]
          simp

lemma occs_updateAt_removeCards (cid : String) :
    ∀ (cols : List Column) (ci : Nat) (ex : Card) (rest : List (Nat × Card)),
      occs cols cid = (ci, ex) :: rest →
      (∀ o ∈ rest, o.1 ≠ ci) →
      occs (updateAt ci (removeCards cid) cols) cid = rest := by
  intro cols
  induction cols with
  | nil => intro ci ex rest h _; simp [occs_nil] at h
  | cons c cs ih =>
    intro ci ex rest h hrest
    cases hf : c.cards.filter (fun x => x.id == cid) with
    | cons k ks =>
      rw [occs_cons, hf] at h
      simp only [List.map_cons, List.cons_append] at h
      rcases List.cons.inj h with ⟨h1, h2⟩
      rcases Prod.mk.inj h1 with ⟨h1a, h1b⟩
      subst h1a
      have hks : ks = [] := by
        cases hks : ks with
        | nil => rfl
        | cons k2 ks2 =>
          exfalso
          have : ((0, k2) : Nat × Card) ∈ rest := by
            rw [← h2, hks]
            simp
          exact (hrest _ this) rfl
      rw [updateAt, occs_cons]
      show ((removeCards cid c).cards.filter (fun x => x.id == cid)).map
          (fun k => ((0:Nat), k)) ++ (occs cs cid).map (fun p => (p.1 + 1, p.2)) = rest
      rw [removeCards]
      show ((c.cards.filter (fun k => !(k.id == cid))).filter
          (fun x => x.id == cid)).map (fun k => ((0:Nat), k)) ++ _ = rest
      rw [filter_removeCards_self]
      rw [← h2, hks]
    | nil =>
      rw [occs_cons, hf] at h
      simp only [List.map_nil, List.nil_append] at h
      cases h2 : occs cs cid with
      | nil => rw [h2] at h; simp at h
      | cons p ps =>
        rw [h2] at h
        simp only [List.map_cons] at h
        rcases List.cons.inj h with ⟨h1, h3⟩
        rcases Prod.mk.inj h1 with ⟨h1a, h1b⟩
        match ci, h1a with
        | _, rfl =>
          have hps : ∀ o ∈ ps, o.1 ≠ p.1 := by
            intro o ho hcontra
            have : ((o.1 + 1, o.2) : Nat × Card) ∈ rest := by
              rw [← h3]
              exact List.mem_map.mpr ⟨o, ho, rfl⟩
            exact (hrest _ this) (congrArg (fun x => x + 1) hcontra)
          rw [updateAt, occs_cons, hf, ih p.1 p.2 ps (by rw [h2]) hps, ← h3]
          simp

lemma idTitle_updateAt (f : Column → Column)
    (hid : ∀ c, (f c).id = c.id) (htitle : ∀ c, (f c).title = c.title) :
    ∀ (cols : List Column) (i : Nat),
      (updateAt i f cols).map (fun c => (c.id, c.title))
        = cols.map (fun c => (c.id, c.title)) := by
  intro cols
  induction cols with
  | nil => intro i; simp [updateAt]
  | cons c cs ih =>
    intro i
    match i with
    | 0 => simp [updateAt, hid c, htitle c]
    | n + 1 => simp [updateAt, ih n]

lemma contentOverwrite_id (ex inc : Card) : (contentOverwrite ex inc).id = ex.id := rfl

lemma mergedContent_id (ex inc : Card) : (mergedContent ex inc).id = ex.id := by
  unfold mergedContent
  by_cases h : isContentANewer inc ex <;> simp [h, contentOverwrite_id]

lemma idTitle_updateAt_push (k : Card) (cols : List Column) (i : Nat) :
    (updateAt i (pushCard k) cols).map (fun c => (c.id, c.title))
      = cols.map (fun c => (c.id, c.title)) :=
  idTitle_updateAt (pushCard k) (fun c => rfl) (fun c => rfl) cols i

lemma idTitle_updateAt_remove (cid : String) (cols : List Column) (i : Nat) :
    (updateAt i (removeCards cid) cols).map (fun c => (c.id, c.title))
      = cols.map (fun c => (c.id, c.title)) :=
  idTitle_updateAt (removeCards cid) (fun c => rfl) (fun c => rfl) cols i

lemma idTitle_updateAt_replace (cid : String) (k' : Card) (cols : List Column) (i : Nat) :
    (updateAt i (fun c => { c with cards := replaceFirstCard cid k' c.cards })
        cols).map (fun c => (c.id, c.title))
      = cols.map (fun c => (c.id, c.title)) :=
  idTitle_updateAt (fun c => { c with cards := replaceFirstCard cid k' c.cards })
    (fun c => rfl) (fun c => rfl) cols i

lemma mergeCard_idTitle (t : Nat) (cols : List Column) (inc : Card) :
    (mergeCard t cols inc).map (fun c => (c.id, c.title))
      = cols.map (fun c => (c.id, c.title)) := by
  unfold mergeCard
  cases h : Store.findCardLoc cols inc.id with
  | none =>
    exact idTitle_updateAt_push inc cols t
  | some p =>
    rcases p with ⟨ci, ex⟩
    dsimp only []
    split
    · rw [idTitle_updateAt_push, idTitle_updateAt_remove, idTitle_updateAt_replace]
    · exact idTitle_updateAt_replace inc.id (mergedContent ex inc) cols ci

lemma updateAt_length (f : α → α) :
    ∀ (cols : List α) (i : Nat), (updateAt i f cols).length = cols.length := by
  intro cols
  induction cols with
  | nil => intro i; simp [updateAt]
  | cons c cs ih =>
    intro i
    match i with
    | 0 => simp [updateAt]
    | n + 1 => simp [updateAt, ih n]

lemma mergeCard_length (t : Nat) (cols : List Column) (inc : Card) :
    (mergeCard t cols inc).length = cols.length := by
  have h := mergeCard_idTitle t cols inc
  have := congrArg List.length h
  simpa using this

lemma colIdAt_congr :
    ∀ (cols cols' : List Column),
      cols.map (fun c => (c.id, c.title)) = cols'.map (fun c => (c.id, c.title)) →
      ∀ i, Store.colIdAt cols i = Store.colIdAt cols' i := by
  intro cols
  induction cols with
  | nil =>
    intro cols' h i
    cases cols' with
    | nil => rfl
    | cons c cs => simp at h
  | cons c cs ih =>
    intro cols' h i
    cases cols' with
    | nil => simp at h
    | cons c' cs' =>
      simp only [List.map_cons, List.cons.injEq] at h
      rcases h with ⟨h1, h2⟩
      match i with
      | 0 =>
        show c.id = c'.id
        exact (Prod.mk.inj h1).1
      | n + 1 =>
        show Store.colIdAt cs n = Store.colIdAt cs' n
        exact ih cs' h2 n

lemma not_string_lt_empty (s : String) : ¬(s < "") := by
  simp [String.lt_iff_toList_lt]

lemma seqEqB_refl (a : Option Int) : seqEqB a a = true := by
  cases a <;> simp [seqEqB]

lemma isContentANewer_irrefl (A : Card) : isContentANewer A A = false := by
  unfold isContentANewer
  simp [seqEqB_refl, lt_irrefl]

lemma isPositionANewer_irrefl (A : Card) : isPositionANewer A A = false := by
  unfold isPositionANewer
  simp [seqEqB_refl, lt_irrefl]

/-- The timestamp of an overwrite-preferred field is at least the incoming
field's value. -/
lemma timeVal_pref_ge (o o' : Option Nat) :
    timeVal o ≤ timeVal (if o.isSome then o else o') := by
  cases o <;> simp [timeVal]

/-- After a content overwrite, the incoming card's content key is never
still strictly newer than the merged card's. -/
lemma isContentANewer_overwrite (ex inc : Card) :
    isContentANewer inc (contentOverwrite ex inc) = false := by
  have hts : contentTs inc ≤ contentTs (contentOverwrite ex inc) := by
    unfold contentTs contentOverwrite
    dsimp only
    have h1 := timeVal_pref_ge inc.contentChangedAt ex.contentChangedAt
    have h2 := timeVal_pref_ge inc.lastChanged ex.lastChanged
    have h3 := timeVal_pref_ge inc.createdAt ex.createdAt
    omega
  unfold isContentANewer
  by_cases h : contentTs inc = contentTs (contentOverwrite ex inc)
  · rw [if_neg (by simp [h])]
    by_cases hsq : seqEqB inc.seq (contentOverwrite ex inc).seq = true
    · rw [if_neg (by simp [hsq])]
      show decide ((contentOverwrite ex inc).lastChangedBy < inc.lastChangedBy) = false
      unfold contentOverwrite
      dsimp only
      by_cases hl : inc.lastChangedBy ≠ ""
      · rw [if_pos hl]
        simp [lt_irrefl]
      · rw [if_neg hl]
        simp only [ne_eq, not_not] at hl
        rw [hl]
        exact decide_eq_false (not_string_lt_empty _)
    · rw [if_pos (by simp [hsq])]
      show seqGtB inc.seq (contentOverwrite ex inc).seq = false
      unfold contentOverwrite
      dsimp only
      cases hs : inc.seq with
      | some a => simp [hs, seqGtB]
      | none => cases ex.seq <;> simp [seqGtB]
  · rw [if_pos h]
    have : contentTs inc < contentTs (contentOverwrite ex inc) := lt_of_le_of_ne hts h
    simp
    omega

/-- After a content overwrite, the incoming card's position key is never
still strictly newer than the merged card's. -/
lemma isPositionANewer_overwrite (ex inc : Card) :
    isPositionANewer inc (contentOverwrite ex inc) = false := by
  have hp : timeVal inc.positionChangedAt
      ≤ timeVal (contentOverwrite ex inc).positionChangedAt := by
    unfold contentOverwrite
    dsimp only
    exact timeVal_pref_ge _ _
  have hl : timeVal inc.lastChanged ≤ timeVal (contentOverwrite ex inc).lastChanged := by
    unfold contentOverwrite
    dsimp only
    exact timeVal_pref_ge _ _
  unfold isPositionANewer
  by_cases h1 : timeVal inc.positionChangedAt
      = timeVal (contentOverwrite ex inc).positionChangedAt
  · rw [if_neg (by simp [h1])]
    by_cases h2 : timeVal inc.lastChanged = timeVal (contentOverwrite ex inc).lastChanged
    · rw [if_neg (by simp [h2])]
      by_cases hsq : seqEqB inc.seq (contentOverwrite ex inc).seq = true
      · rw [if_neg (by simp [hsq])]
        show decide ((contentOverwrite ex inc).lastChangedBy < inc.lastChangedBy) = false
        unfold contentOverwrite
        dsimp only
        by_cases hlc : inc.lastChangedBy ≠ ""
        · rw [if_pos hlc]
          simp [lt_irrefl]
        · rw [if_neg hlc]
          simp only [ne_eq, not_not] at hlc
          rw [hlc]
          exact decide_eq_false (not_string_lt_empty _)
      · rw [if_pos (by simp [hsq])]
        show seqGtB inc.seq (contentOverwrite ex inc).seq = false
        unfold contentOverwrite
        dsimp only
        cases hs : inc.seq with
        | some a => simp [hs, seqGtB]
        | none => cases ex.seq <;> simp [seqGtB]
    · rw [if_pos h2]
      have : timeVal inc.lastChanged < timeVal (contentOverwrite ex inc).lastChanged :=
        lt_of_le_of_ne hl h2
      simp
      omega
  · rw [if_pos h1]
    have : timeVal inc.positionChangedAt
        < timeVal (contentOverwrite ex inc).positionChangedAt := lt_of_le_of_ne hp h1
    simp
    omega

lemma lastIdx_map_some_lt (p : Column → Bool) (cols : List Column) (t : Nat) :
    ((cols.reverse.findIdx? p).map (fun i => cols.length - 1 - i)) = some t →
      t < cols.length := by
  intro h
  rcases Option.map_eq_some'.mp h with ⟨i, hi, rfl⟩
  have hlt : i < cols.reverse.length := (List.findIdx?_eq_some_iff_getElem.mp hi).fst
  simp only [List.length_reverse] at hlt
  omega

lemma resolveTarget_lt (cols : List Column) (c : Column) (t : Nat) :
    resolveTarget cols c = some t → t < cols.length := by
  intro h
  unfold resolveTarget at h
  cases h1 : lastIdxById cols c.id with
  | some j =>
    rw [h1] at h
    cases h
    exact lastIdx_map_some_lt _ cols _ h1
  | none =>
    rw [h1] at h
    exact lastIdx_map_some_lt _ cols _ h

lemma lastIdx_map_isSome_iff (p : Column → Bool) (cols : List Column) :
    ((cols.reverse.findIdx? p).map (fun i => cols.length - 1 - i)).isSome = true
      ↔ ∃ c ∈ cols, p c = true := by
  rw [show ((cols.reverse.findIdx? p).map (fun i => cols.length - 1 - i)).isSome
      = (cols.reverse.findIdx? p).isSome from Option.isSome_map]
  rw [List.findIdx?_isSome, List.any_eq_true]
  constructor
  · rintro ⟨c, hc, hpc⟩
    exact ⟨c, List.mem_reverse.mp hc, hpc⟩
  · rintro ⟨c, hc, hpc⟩
    exact ⟨c, List.mem_reverse.mpr hc, hpc⟩

lemma resolveTarget_isSome_iff (cols : List Column) (inc : Column) :
    (resolveTarget cols inc).isSome = true ↔
      ((∃ c ∈ cols, c.id = inc.id) ∨
        (∃ c ∈ cols, normTitle c.title = normTitle inc.title)) := by
  unfold resolveTarget lastIdxById lastIdxByTitle
  cases h1 : (cols.reverse.findIdx? (fun c => c.id == inc.id)).map
      (fun i => cols.length - 1 - i) with
  | some j =>
    simp only [Option.isSome_some, true_iff]
    left
    have : ((cols.reverse.findIdx? (fun c => c.id == inc.id)).map
        (fun i => cols.length - 1 - i)).isSome = true := by rw [h1]; rfl
    rcases (lastIdx_map_isSome_iff _ cols).mp this with ⟨c, hc, hpc⟩
    exact ⟨c, hc, by simpa using hpc⟩
  | none =>
    constructor
    · intro h
      right
      rcases (lastIdx_map_isSome_iff _ cols).mp h with ⟨c, hc, hpc⟩
      exact ⟨c, hc, by simpa using hpc⟩
    · intro h
      rcases h with ⟨c, hc, hpc⟩ | ⟨c, hc, hpc⟩
      · exfalso
        have : ((cols.reverse.findIdx? (fun c => c.id == inc.id)).map
            (fun i => cols.length - 1 - i)).isSome = true :=
          (lastIdx_map_isSome_iff _ cols).mpr ⟨c, hc, by simpa using hpc⟩
        rw [h1] at this
        simp at this
      · exact (lastIdx_map_isSome_iff _ cols).mpr ⟨c, hc, by simpa using hpc⟩

lemma findIdx?_via_proj (q : String × String → Bool) (l : List Column) :
    l.findIdx? (fun c => q (c.id, c.title))
      = (l.map (fun c => (c.id, c.title))).findIdx? q :=
  (List.findIdx?_map _ _).symm

lemma resolveTarget_congr (cols cols' : List Column)
    (h : cols.map (fun c => (c.id, c.title)) = cols'.map (fun c => (c.id, c.title)))
    (c : Column) : resolveTarget cols c = resolveTarget cols' c := by
  have hlen : cols.length = cols'.length := by
    have := congrArg List.length h
    simpa using this
  have hrev : cols.reverse.map (fun c => (c.id, c.title))
      = cols'.reverse.map (fun c => (c.id, c.title)) := by
    rw [List.map_reverse, List.map_reverse, h]
  have hid : cols.reverse.findIdx? (fun d => d.id == c.id)
      = cols'.reverse.findIdx? (fun d => d.id == c.id) := by
    rw [findIdx?_via_proj (fun pr => pr.1 == c.id),
      findIdx?_via_proj (fun pr => pr.1 == c.id), hrev]
  have htitle : cols.reverse.findIdx? (fun d => normTitle d.title == normTitle c.title)
      = cols'.reverse.findIdx? (fun d => normTitle d.title == normTitle c.title) := by
    rw [findIdx?_via_proj (fun pr => normTitle pr.2 == normTitle c.title),
      findIdx?_via_proj (fun pr => normTitle pr.2 == normTitle c.title), hrev]
  unfold resolveTarget lastIdxById lastIdxByTitle
  rw [hid, htitle, hlen]

lemma findCardLoc_id (cols : List Column) (cid : String) (ci : Nat) (ex : Card)
    (h : Store.findCardLoc cols cid = some (ci, ex)) : ex.id = cid := by
  rw [findCardLoc_eq_head] at h
  have hmem : ((ci, ex) : Nat × Card) ∈ occs cols cid := by
    cases ho : occs cols cid with
    | nil => rw [ho] at h; simp at h
    | cons p ps =>
      rw [ho] at h
      simp only [List.head?_cons, Option.some.injEq] at h
      rw [← h]
      simp
  exact mem_occs_id cid cols (ci, ex) hmem

lemma findCardLoc_none_iff (cols : List Column) (cid : String) :
    Store.findCardLoc cols cid = none ↔ occs cols cid = [] := by
  rw [findCardLoc_eq_head]
  cases occs cols cid <;> simp

lemma occs_mergeCard_other (t : Nat) (cols : List Column) (inc : Card)
    (cid : String) (hne : cid ≠ inc.id) :
    occs (mergeCard t cols inc) cid = occs cols cid := by
  unfold mergeCard
  cases h : Store.findCardLoc cols inc.id with
  | none =>
    refine occs_updateAt_of_filter_eq cid (pushCard inc) ?_ cols t
    intro c
    rw [pushCard]
    show (c.cards ++ [inc]).filter (fun x => x.id == cid) = _
    rw [List.filter_append, List.filter_cons_of_neg (by simp [Ne.symm hne])]
    simp
  | some p =>
    rcases p with ⟨ci, ex⟩
    have hexid : ex.id = inc.id := findCardLoc_id cols inc.id ci ex h
    have hex'id : (mergedContent ex inc).id = inc.id := by
      rw [mergedContent_id, hexid]
    dsimp only
    have hrep : occs (updateAt ci
        (fun c => { c with cards := replaceFirstCard inc.id (mergedContent ex inc) c.cards })
        cols) cid = occs cols cid := by
      refine occs_updateAt_of_filter_eq cid _ ?_ cols ci
      intro c
      exact filter_replaceFirst_other inc.id cid (mergedContent ex inc) hex'id hne c.cards
    split
    · rw [occs_updateAt_of_filter_eq cid (pushCard (mergedContent ex inc)) ?f1,
        occs_updateAt_of_filter_eq cid (removeCards inc.id) ?f2, hrep]
      case f1 =>
        intro c
        rw [pushCard]
        show (c.cards ++ [mergedContent ex inc]).filter (fun x => x.id == cid) = _
        rw [List.filter_append,
          List.filter_cons_of_neg (by simp [hex'id, Ne.symm hne])]
        simp
      case f2 =>
        intro c
        rw [removeCards]
        show (c.cards.filter (fun k => !(k.id == inc.id))).filter (fun x => x.id == cid) = _
        exact filter_removeCards_other inc.id cid hne c.cards
    · exact hrep

lemma occs_updateAt_push_ne_nil (k : Card) :
    ∀ (cols : List Column) (t : Nat), t < cols.length →
      occs (updateAt t (pushCard k) cols) k.id ≠ [] := by
  intro cols
  induction cols with
  | nil => intro t ht; simp at ht
  | cons c cs ih =>
    intro t ht
    match t with
    | 0 =>
      rw [updateAt, occs_cons]
      intro hcontra
      rcases List.append_eq_nil.mp hcontra with ⟨h1, _⟩
      rw [List.map_eq_nil_iff] at h1
      rw [pushCard] at h1
      have : k ∈ (c.cards ++ [k]).filter (fun x => x.id == k.id) :=
        List.mem_filter.mpr ⟨by simp, by simp⟩
      rw [show ({ c with cards := c.cards ++ [k] } : Column).cards = c.cards ++ [k] from rfl] at h1
      rw [h1] at this
      simp at this
    | n + 1 =>
      rw [updateAt, occs_cons]
      intro hcontra
      rcases List.append_eq_nil.mp hcontra with ⟨_, h2⟩
      rw [List.map_eq_nil_iff] at h2
      exact ih n (by simpa using ht) h2

lemma occs_mergeCard_self_ne_nil (t : Nat) (cols : List Column) (inc : Card)
    (ht : t < cols.length) : occs (mergeCard t cols inc) inc.id ≠ [] := by
  unfold mergeCard
  cases h : Store.findCardLoc cols inc.id with
  | none =>
    have hnil : occs cols inc.id = [] := (findCardLoc_none_iff cols inc.id).mp h
    rw [occs_updateAt_push inc.id inc rfl cols t ht (by rw [hnil]; intro o ho; simp at ho)]
    simp
  | some p =>
    rcases p with ⟨ci, ex⟩
    have hexid : ex.id = inc.id := findCardLoc_id cols inc.id ci ex h
    have hex'id : (mergedContent ex inc).id = inc.id := by rw [mergedContent_id, hexid]
    have hocc : ∃ rest, occs cols inc.id = (ci, ex) :: rest := by
      rw [findCardLoc_eq_head] at h
      cases ho : occs cols inc.id with
      | nil => rw [ho] at h; simp at h
      | cons q qs =>
        rw [ho] at h
        simp only [List.head?_cons, Option.some.injEq] at h
        exact ⟨qs, by rw [h]⟩
    rcases hocc with ⟨rest, hocc⟩
    dsimp only
    have hrep := occs_updateAt_replaceFirst inc.id (mergedContent ex inc) hex'id
      cols ci ex rest hocc
    split
    · rw [← hex'id]
      exact occs_updateAt_push_ne_nil (mergedContent ex inc) _ t
        (by rw [updateAt_length, updateAt_length]; exact ht)
    · rw [hrep]
      simp

lemma mergeCard_mem_mono (t : Nat) (cols : List Column) (inc : Card) (cid : String)
    (ht : t < cols.length) (h : occs cols cid ≠ []) :
    occs (mergeCard t cols inc) cid ≠ [] := by
  by_cases he : cid = inc.id
  · subst he
    exact occs_mergeCard_self_ne_nil t cols inc ht
  · rw [occs_mergeCard_other t cols inc cid he]
    exact h

lemma foldl_mergeCard_mono (t : Nat) (cid : String) :
    ∀ (cards : List Card) (S : List Column), t < S.length → occs S cid ≠ [] →
      occs (cards.foldl (mergeCard t) S) cid ≠ [] := by
  intro cards
  induction cards with
  | nil => intro S _ h; exact h
  | cons k ks ih =>
    intro S ht h
    rw [List.foldl_cons]
    exact ih (mergeCard t S k) (by rw [mergeCard_length]; exact ht)
      (mergeCard_mem_mono t S k cid ht h)

lemma foldl_mergeCard_self (t : Nat) (inc : Card) :
    ∀ (cards : List Card), inc ∈ cards → ∀ S : List Column, t < S.length →
      occs (cards.foldl (mergeCard t) S) inc.id ≠ [] := by
  intro cards
  induction cards with
  | nil => intro h; simp at h
  | cons k ks ih =>
    intro hin S ht
    rw [List.foldl_cons]
    rcases List.mem_cons.mp hin with rfl | hin
    · exact foldl_mergeCard_mono t inc.id ks (mergeCard t S inc)
        (by rw [mergeCard_length]; exact ht)
        (occs_mergeCard_self_ne_nil t S inc ht)
    · exact ih hin (mergeCard t S k) (by rw [mergeCard_length]; exact ht)

lemma foldl_mergeCard_idTitle (t : Nat) :
    ∀ (cards : List Card) (S : List Column),
      ((cards.foldl (mergeCard t) S).map (fun c => (c.id, c.title)))
        = S.map (fun c => (c.id, c.title)) := by
  intro cards
  induction cards with
  | nil => intro S; rfl
  | cons k ks ih =>
    intro S
    rw [List.foldl_cons, ih, mergeCard_idTitle]

lemma mergeColCards_idTitle (S : List Column) (C : Column) :
    (mergeColCards S C).map (fun c => (c.id, c.title))
      = S.map (fun c => (c.id, c.title)) := by
  unfold mergeColCards
  cases h : resolveTarget S C with
  | none => rfl
  | some t => exact foldl_mergeCard_idTitle t C.cards S

lemma mergeColCards_length (S : List Column) (C : Column) :
    (mergeColCards S C).length = S.length := by
  have := congrArg List.length (mergeColCards_idTitle S C)
  simpa using this

lemma mergeColCards_mono (S : List Column) (C : Column) (cid : String)
    (h : occs S cid ≠ []) : occs (mergeColCards S C) cid ≠ [] := by
  unfold mergeColCards
  cases hr : resolveTarget S C with
  | none => exact h
  | some t =>
    exact foldl_mergeCard_mono t cid C.cards S (resolveTarget_lt S C t hr) h

lemma foldl_mergeColCards_mono (cid : String) :
    ∀ (T : List Column) (S : List Column), occs S cid ≠ [] →
      occs (T.foldl mergeColCards S) cid ≠ [] := by
  intro T
  induction T with
  | nil => intro S h; exact h
  | cons C T' ih =>
    intro S h
    rw [List.foldl_cons]
    exact ih (mergeColCards S C) (mergeColCards_mono S C cid h)

lemma foldl_mergeColCards_idTitle :
    ∀ (T : List Column) (S : List Column),
      ((T.foldl mergeColCards S).map (fun c => (c.id, c.title)))
        = S.map (fun c => (c.id, c.title)) := by
  intro T
  induction T with
  | nil => intro S; rfl
  | cons C T' ih =>
    intro S
    rw [List.foldl_cons, ih, mergeColCards_idTitle]

lemma foldl_mergeColCards_self :
    ∀ (T : List Column) (S : List Column),
      (∀ C ∈ T, (resolveTarget S C).isSome = true) →
      ∀ C ∈ T, ∀ inc ∈ C.cards,
        occs (T.foldl mergeColCards S) inc.id ≠ [] := by
  intro T
  induction T with
  | nil => intro S _ C hC; simp at hC
  | cons C0 T' ih =>
    intro S hres C hC inc hinc
    rw [List.foldl_cons]
    rcases List.mem_cons.mp hC with rfl | hC
    · rcases Option.isSome_iff_exists.mp (hres C (List.mem_cons_self _ _)) with ⟨t, hrt⟩
      have hne : occs (mergeColCards S C) inc.id ≠ [] := by
        unfold mergeColCards
        rw [hrt]
        exact foldl_mergeCard_self t inc C.cards hinc S (resolveTarget_lt S C t hrt)
      exact foldl_mergeColCards_mono inc.id T' (mergeColCards S C) hne
    · refine ih (mergeColCards S C0) ?_ C hC inc hinc
      intro D hD
      rw [resolveTarget_congr (mergeColCards S C0) S (mergeColCards_idTitle S C0) D]
      exact hres D (List.mem_cons_of_mem _ hD)

lemma occs_append_ne_nil_left (cid : String) (l1 l2 : List Column)
    (h : occs l1 cid ≠ []) : occs (l1 ++ l2) cid ≠ [] := by
  rw [occs_append]
  intro hc
  exact h (List.append_eq_nil.mp hc).1

lemma addColIfUnmatched_mono (S : List Column) (C : Column) (cid : String)
    (h : occs S cid ≠ []) : occs (addColIfUnmatched S C) cid ≠ [] := by
  unfold addColIfUnmatched
  cases resolveTarget S C with
  | some t => exact h
  | none => exact occs_append_ne_nil_left cid S [C] h

lemma foldl_addCol_mono (cid : String) :
    ∀ (L S : List Column), occs S cid ≠ [] →
      occs (L.foldl addColIfUnmatched S) cid ≠ [] := by
  intro L
  induction L with
  | nil => intro S h; exact h
  | cons C L' ih =>
    intro S h
    rw [List.foldl_cons]
    exact ih (addColIfUnmatched S C) (addColIfUnmatched_mono S C cid h)

lemma resolvable_addCol_mono (S : List Column) (C D : Column)
    (h : (resolveTarget S D).isSome = true) :
    (resolveTarget (addColIfUnmatched S C) D).isSome = true := by
  unfold addColIfUnmatched
  cases resolveTarget S C with
  | some t => exact h
  | none =>
    rw [resolveTarget_isSome_iff] at h ⊢
    rcases h with ⟨c, hc, hic⟩ | ⟨c, hc, hic⟩
    · exact Or.inl ⟨c, List.mem_append.mpr (Or.inl hc), hic⟩
    · exact Or.inr ⟨c, List.mem_append.mpr (Or.inl hc), hic⟩

lemma resolvable_self_addCol (S : List Column) (C : Column) :
    (resolveTarget (addColIfUnmatched S C) C).isSome = true := by
  unfold addColIfUnmatched
  cases h : resolveTarget S C with
  | some t => rw [h]; rfl
  | none =>
    rw [resolveTarget_isSome_iff]
    exact Or.inl ⟨C, List.mem_append.mpr (Or.inr (by simp)), rfl⟩

lemma phase1_resolvable :
    ∀ (L S : List Column), ∀ C ∈ L,
      (resolveTarget (L.foldl addColIfUnmatched S) C).isSome = true := by
  intro L
  induction L with
  | nil => intro S C hC; simp at hC
  | cons C0 L' ih =>
    intro S C hC
    rw [List.foldl_cons]
    rcases List.mem_cons.mp hC with rfl | hC
    · -- resolvability of C0 after its own step, preserved through the rest
      have h0 : (resolveTarget (addColIfUnmatched S C) C).isSome = true :=
        resolvable_self_addCol S C
      clear hC ih
      generalize addColIfUnmatched S C = S1 at h0
      induction L' generalizing S1 with
      | nil => exact h0
      | cons D L'' ih2 =>
        rw [List.foldl_cons]
        exact ih2 _ (resolvable_addCol_mono S1 D C h0)
    · exact ih (addColIfUnmatched S C0) C hC

lemma mem_cardIds_iff (cid : String) :
    ∀ cols : List Column, cid ∈ cardIds cols ↔ occs cols cid ≠ [] := by
  intro cols
  induction cols with
  | nil => simp [cardIds, occs_nil]
  | cons c cs ih =>
    rw [cardIds, occs_cons]
    simp only [List.flatMap_cons]
    constructor
    · intro h
      rcases List.mem_append.mp h with h | h
      · rcases List.mem_map.mp h with ⟨k, hk, rfl⟩
        intro hc
        rcases List.append_eq_nil.mp hc with ⟨h1, _⟩
        rw [List.map_eq_nil_iff, List.filter_eq_nil_iff] at h1
        exact h1 k hk (by simp)
      · have := ih.mp (by rw [cardIds]; exact h)
        intro hc
        rcases List.append_eq_nil.mp hc with ⟨_, h2⟩
        rw [List.map_eq_nil_iff] at h2
        exact this h2
    · intro h
      by_cases h1 : c.cards.filter (fun x => x.id == cid) = []
      · have h2 : occs cs cid ≠ [] := by
          intro hc
          exact h (by rw [h1, hc]; simp)
        have := ih.mpr h2
        refine List.mem_append.mpr (Or.inr ?_)
        rw [cardIds] at this
        exact this
      · rcases List.exists_cons_of_ne_nil h1 with ⟨k, ks, hk⟩
        have hkmem : k ∈ c.cards.filter (fun x => x.id == cid) := by rw [hk]; simp
        have hkid : k.id = cid := by simpa using List.of_mem_filter hkmem
        refine List.mem_append.mpr (Or.inl ?_)
        exact List.mem_map.mpr ⟨k, List.mem_filter.mp hkmem |>.1, hkid⟩

/-- C10: the import merge never removes a card — every card id on the board
before the merge is still on the board afterwards — and every card id
occurring in the incoming snapshot is on the board afterwards (so a card
deleted locally but still present in the snapshot is re-added; deletions do
not propagate). -/
theorem merge_preserves_and_adds_cards (b s : Board) :
    (∀ cid ∈ cardIds b.columns, cid ∈ cardIds (mergeBoard b s).columns) ∧
    (∀ cid ∈ cardIds s.columns, cid ∈ cardIds (mergeBoard b s).columns) := by
  constructor
  · intro cid h
    rw [mem_cardIds_iff] at h ⊢
    unfold mergeBoard
    dsimp only
    exact foldl_mergeColCards_mono cid s.columns _ (foldl_addCol_mono cid s.columns b.columns h)
  · intro cid h
    rw [mem_cardIds_iff]
    unfold mergeBoard
    dsimp only
    unfold cardIds at h
    rcases List.mem_flatMap.mp h with ⟨C, hC, hk⟩
    rcases List.mem_map.mp hk with ⟨k, hkmem, rfl⟩
    exact foldl_mergeColCards_self s.columns _
      (fun D hD => phase1_resolvable s.columns b.columns D hD) C hC k hkmem

/-- Witness for C10 at a concrete board and snapshot: the board's card "x"
survives a merge with a snapshot lacking it, and the snapshot's card "y"
(absent from the board) is added. -/
theorem merge_preserves_and_adds_cards_witness :
    "x" ∈ cardIds (mergeBoard
        ⟨[⟨"a", "A", [⟨"x", "X", "", [], "", none, none, none, "", none, none, none⟩],
          false, false⟩]⟩
        ⟨[⟨"a", "A", [⟨"y", "Y", "", [], "", none, none, none, "", none, none, none⟩],
          false, false⟩]⟩).columns ∧
    "y" ∈ cardIds (mergeBoard
        ⟨[⟨"a", "A", [⟨"x", "X", "", [], "", none, none, none, "", none, none, none⟩],
          false, false⟩]⟩
        ⟨[⟨"a", "A", [⟨"y", "Y", "", [], "", none, none, none, "", none, none, none⟩],
          false, false⟩]⟩).columns :=
  ⟨(merge_preserves_and_adds_cards _ _).1 "x" (by decide),
   (merge_preserves_and_adds_cards _ _).2 "y" (by decide)⟩

end Merge

namespace Merge

/-- Removing every card of an id from column `ci` removes exactly the
occurrences sitting in column `ci`. -/
lemma occs_updateAt_removeCards_filter (cid : String) :
    ∀ (cols : List Column) (ci : Nat),
      occs (updateAt ci (removeCards cid) cols) cid
        = (occs cols cid).filter (fun o => !(o.1 == ci)) := by
  intro cols
  induction cols with
  | nil => intro ci; simp [updateAt, occs_nil]
  | cons c cs ih =>
    intro ci
    match ci with
    | 0 =>
      rw [updateAt, occs_cons, occs_cons]
      rw [show (removeCards cid c).cards = c.cards.filter (fun k => !(k.id == cid)) from rfl]
      rw [filter_removeCards_self]
      rw [List.filter_append, List.filter_map, List.filter_map]
      have h1 : ∀ L : List Card,
          (L.filter (((fun (o : Nat × Card) => !(o.1 == 0)) ∘ (fun k => ((0:Nat), k))))) = [] := by
        intro L
        refine List.filter_eq_nil_iff.mpr ?_
        intro a _
        simp [Function.comp]
      have h2 : (occs cs cid).filter
          ((fun (o : Nat × Card) => !(o.1 == 0)) ∘ (fun p : Nat × Card => (p.1 + 1, p.2)))
            = occs cs cid := by
        refine List.filter_eq_self.mpr ?_
        intro a _
        simp [Function.comp]
      rw [h1, h2]
    | n + 1 =>
      rw [updateAt, occs_cons, occs_cons, ih n]
      rw [List.filter_append, List.filter_map, List.filter_map]
      have h1 : ∀ L : List Card,
          (L.filter (((fun (o : Nat × Card) => !(o.1 == n + 1)) ∘ (fun k => ((0:Nat), k))))) = L := by
        intro L
        refine List.filter_eq_self.mpr ?_
        intro a _
        simp [Function.comp]
      have h2 : (occs cs cid).filter
          ((fun (o : Nat × Card) => !(o.1 == n + 1)) ∘ (fun p : Nat × Card => (p.1 + 1, p.2)))
            = (occs cs cid).filter (fun o => !(o.1 == n)) := by
        refine List.filter_congr ?_
        intro a _
        simp [Function.comp]
      rw [h1, h2]

/-- Pushing a card with the id onto column `t` inserts its occurrence after
all occurrences in columns up to `t` and before those in later columns. -/
lemma occs_updateAt_push_split (cid : String) (k : Card) (hk : k.id = cid) :
    ∀ (cols : List Column) (t : Nat), t < cols.length →
      occs (updateAt t (pushCard k) cols) cid
        = (occs cols cid).filter (fun o => o.1 ≤ t) ++ [(t, k)]
          ++ (occs cols cid).filter (fun o => !(o.1 ≤ t)) := by
  intro cols
  induction cols with
  | nil => intro t ht; simp at ht
  | cons c cs ih =>
    intro t ht
    match t with
    | 0 =>
      rw [updateAt, occs_cons, occs_cons]
      rw [show (pushCard k c).cards = c.cards ++ [k] from rfl]
      rw [List.filter_append, List.filter_cons_of_pos (by simp [hk])]
      rw [List.filter_append, List.filter_map, List.filter_map,
        List.filter_append, List.filter_map, List.filter_map]
      have h1 : ∀ L : List Card,
          L.filter ((fun (o : Nat × Card) => decide (o.1 ≤ 0)) ∘ (fun k => ((0:Nat), k))) = L :=
        fun L => List.filter_eq_self.mpr (fun a _ => by simp [Function.comp])
      have h2 : (occs cs cid).filter
          ((fun (o : Nat × Card) => decide (o.1 ≤ 0)) ∘ (fun p : Nat × Card => (p.1 + 1, p.2))) = [] :=
        List.filter_eq_nil_iff.mpr (fun a _ => by simp [Function.comp])
      have h3 : ∀ L : List Card,
          L.filter ((fun (o : Nat × Card) => !decide (o.1 ≤ 0)) ∘ (fun k => ((0:Nat), k))) = [] :=
        fun L => List.filter_eq_nil_iff.mpr (fun a _ => by simp [Function.comp])
      have h4 : (occs cs cid).filter
          ((fun (o : Nat × Card) => !decide (o.1 ≤ 0)) ∘ (fun p : Nat × Card => (p.1 + 1, p.2)))
            = occs cs cid :=
        List.filter_eq_self.mpr (fun a _ => by simp [Function.comp])
      rw [h1, h2, h3, h4]
      simp
    | n + 1 =>
      rw [updateAt, occs_cons, occs_cons, ih n (by simpa using ht)]
      rw [List.filter_append, List.filter_map, List.filter_map,
        List.filter_append, List.filter_map, List.filter_map]
      have h1 : ∀ L : List Card,
          L.filter ((fun (o : Nat × Card) => decide (o.1 ≤ n + 1)) ∘ (fun k => ((0:Nat), k))) = L :=
        fun L => List.filter_eq_self.mpr (fun a _ => by simp [Function.comp])
      have h2 : (occs cs cid).filter
          ((fun (o : Nat × Card) => decide (o.1 ≤ n + 1)) ∘ (fun p : Nat × Card => (p.1 + 1, p.2)))
            = (occs cs cid).filter (fun o => o.1 ≤ n) :=
        List.filter_congr (fun a _ => by simp [Function.comp])
      have h3 : ∀ L : List Card,
          L.filter ((fun (o : Nat × Card) => !decide (o.1 ≤ n + 1)) ∘ (fun k => ((0:Nat), k))) = [] :=
        fun L => List.filter_eq_nil_iff.mpr (fun a _ => by simp [Function.comp])
      have h4 : (occs cs cid).filter
          ((fun (o : Nat × Card) => !decide (o.1 ≤ n + 1)) ∘ (fun p : Nat × Card => (p.1 + 1, p.2)))
            = (occs cs cid).filter (fun o => !(decide (o.1 ≤ n))) :=
        List.filter_congr (fun a _ => by simp [Function.comp])
      rw [h1, h2, h3, h4]
      simp [List.map_append]

lemma occs_head_filter (cid : String) :
    ∀ (cols : List Column) (ci : Nat) (ex : Card) (rest : List (Nat × Card)),
      occs cols cid = (ci, ex) :: rest →
      ∃ ks, (cols.getD ci default).cards.filter (fun x => x.id == cid) = ex :: ks := by
  intro cols
  induction cols with
  | nil => intro ci ex rest h; simp [occs_nil] at h
  | cons c cs ih =>
    intro ci ex rest h
    cases hf : c.cards.filter (fun x => x.id == cid) with
    | cons k ks =>
      rw [occs_cons, hf] at h
      simp only [List.map_cons, List.cons_append] at h
      rcases List.cons.inj h with ⟨h1, _⟩
      rcases Prod.mk.inj h1 with ⟨h1a, h1b⟩
      subst h1a
      exact ⟨ks, by simpa [List.getD] using hf.trans (by rw [h1b])⟩
    | nil =>
      rw [occs_cons, hf] at h
      simp only [List.map_nil, List.nil_append] at h
      cases h2 : occs cs cid with
      | nil => rw [h2] at h; simp at h
      | cons p ps =>
        rw [h2] at h
        simp only [List.map_cons] at h
        rcases List.cons.inj h with ⟨h1, _⟩
        rcases Prod.mk.inj h1 with ⟨h1a, h1b⟩
        match ci, h1a with
        | _, rfl =>
          rcases ih p.1 p.2 ps (by rw [h2]) with ⟨ks, hks⟩
          exact ⟨ks, by simpa [List.getD] using hks.trans (by rw [h1b])⟩

lemma replaceFirst_self (cid : String) (ex : Card) :
    ∀ (l : List Card) (ks : List Card),
      l.filter (fun x => x.id == cid) = ex :: ks →
      replaceFirstCard cid ex l = l := by
  intro l
  induction l with
  | nil => intro ks h; simp at h
  | cons a as ih =>
    intro ks h
    by_cases ha : a.id = cid
    · rw [List.filter_cons_of_pos (by simp [ha])] at h
      rcases List.cons.inj h with ⟨h1, _⟩
      rw [replaceFirstCard, if_pos (by simp [ha]), ← h1]
    · rw [List.filter_cons_of_neg (by simp [ha])] at h
      rw [replaceFirstCard, if_neg (by simp [ha])]
      exact congrArg _ (ih ks h)

lemma updateAt_id_fun : ∀ (l : List α) (i : Nat), updateAt i (fun x => x) l = l := by
  intro l
  induction l with
  | nil => intro i; simp [updateAt]
  | cons a as ih =>
    intro i
    match i with
    | 0 => rfl
    | n + 1 => rw [updateAt, ih n]

lemma updateAt_self [Inhabited α] (f : α → α) (l : List α) (i : Nat)
    (h : f (l.getD i default) = l.getD i default) : updateAt i f l = l := by
  rw [updateAt_congr f (fun x => x) l i h]
  exact updateAt_id_fun l i

/-- A merge step on a card whose postcondition already holds leaves the
state unchanged — the core of idempotence. -/
lemma mergeCard_identity (t : Nat) (S : List Column) (inc : Card)
    (hgood : GoodCard S t inc) : mergeCard t S inc = S := by
  rcases hgood with ⟨ci, ex, rest, hocc, hcontent, hpos⟩
  unfold mergeCard
  rw [show Store.findCardLoc S inc.id = some (ci, ex) by
    rw [findCardLoc_eq_head, hocc]; rfl]
  dsimp only
  have hmc : mergedContent ex inc = ex := by
    unfold mergedContent
    rw [hcontent]
    simp
  rw [hmc]
  have hcols1 : updateAt ci
      (fun c => { c with cards := replaceFirstCard inc.id ex c.cards }) S = S := by
    refine updateAt_self _ S ci ?_
    rcases occs_head_filter inc.id S ci ex rest hocc with ⟨ks, hks⟩
    rw [replaceFirst_self inc.id ex _ ks hks]
  rw [hcols1]
  rw [if_neg ?hguard]
  case hguard =>
    rintro ⟨hne, hposn⟩
    rcases hpos with hcol | hposf
    · exact hne hcol
    · rw [hposf] at hposn
      exact Bool.false_ne_true hposn

lemma good_of_occs_split (S' : List Column) (t : Nat) (inc ex' : Card)
    (F1 F2 : List (Nat × Card))
    (hocc : occs S' inc.id = F1 ++ [(t, ex')] ++ F2)
    (hF1 : ∀ o ∈ F1, o.2 = inc)
    (hcontent : isContentANewer inc ex' = false) :
    GoodCard S' t inc := by
  cases hF : F1 with
  | nil =>
    exact ⟨t, ex', F2, by rw [hocc, hF]; simp, hcontent, Or.inl rfl⟩
  | cons o0 os =>
    have h02 : o0.2 = inc := hF1 o0 (by rw [hF]; simp)
    refine ⟨o0.1, o0.2, os ++ [(t, ex')] ++ F2, ?_, ?_, ?_⟩
    · rw [hocc, hF]
      simp
    · rw [h02]
      exact isContentANewer_irrefl inc
    · right
      rw [h02]
      exact isPositionANewer_irrefl inc

lemma mergedContent_not_newer (ex inc : Card) :
    isContentANewer inc (mergedContent ex inc) = false := by
  unfold mergedContent
  cases hc : isContentANewer inc ex
  · simpa [hc] using hc
  · simpa [hc] using isContentANewer_overwrite ex inc

/-- One merge step on a card satisfying the precondition establishes the
postcondition. -/
lemma mergeCard_establishes_good (t : Nat) (S : List Column) (inc : Card)
    (ht : t < S.length) (hpre : PreCard S inc) :
    GoodCard (mergeCard t S inc) t inc := by
  unfold mergeCard
  cases h : Store.findCardLoc S inc.id with
  | none =>
    have hnil : occs S inc.id = [] := (findCardLoc_none_iff S inc.id).mp h
    refine ⟨t, inc, [], ?_, isContentANewer_irrefl inc, Or.inl rfl⟩
    rw [occs_updateAt_push inc.id inc rfl S t ht (by rw [hnil]; intro o ho; simp at ho)]
    rw [hnil]
    rfl
  | some p =>
    rcases p with ⟨ci, ex⟩
    obtain ⟨rest, hocc⟩ : ∃ rest, occs S inc.id = (ci, ex) :: rest := by
      rw [findCardLoc_eq_head] at h
      cases ho : occs S inc.id with
      | nil => rw [ho] at h; simp at h
      | cons q qs =>
        rw [ho] at h
        simp only [List.head?_cons, Option.some.injEq] at h
        exact ⟨qs, by rw [h]⟩
    have hexid : ex.id = inc.id := findCardLoc_id S inc.id ci ex h
    have hex' : (mergedContent ex inc).id = inc.id := by rw [mergedContent_id, hexid]
    have hcontent' : isContentANewer inc (mergedContent ex inc) = false :=
      mergedContent_not_newer ex inc
    have hrest : ∀ o ∈ rest, o.2 = inc := by
      intro o ho
      exact hpre o (by rw [hocc]; simpa using ho)
    have hocc1 : occs (updateAt ci
        (fun c => { c with cards := replaceFirstCard inc.id (mergedContent ex inc) c.cards })
        S) inc.id = (ci, mergedContent ex inc) :: rest :=
      occs_updateAt_replaceFirst inc.id (mergedContent ex inc) hex' S ci ex rest hocc
    dsimp only
    split
    case isTrue hguard =>
      have hlen1 : t < (updateAt ci (removeCards inc.id)
          (updateAt ci
            (fun c => { c with cards := replaceFirstCard inc.id (mergedContent ex inc) c.cards })
            S)).length := by
        rw [updateAt_length, updateAt_length]
        exact ht
      have hrem : occs (updateAt ci (removeCards inc.id)
          (updateAt ci
            (fun c => { c with cards := replaceFirstCard inc.id (mergedContent ex inc) c.cards })
            S)) inc.id
          = rest.filter (fun o => !(o.1 == ci)) := by
        rw [occs_updateAt_removeCards_filter, hocc1]
        rw [List.filter_cons_of_neg (by simp)]
      refine good_of_occs_split _ t inc (mergedContent ex inc)
        ((rest.filter (fun o => !(o.1 == ci))).filter (fun o => o.1 ≤ t))
        ((rest.filter (fun o => !(o.1 == ci))).filter (fun o => !(o.1 ≤ t)))
        ?_ ?_ hcontent'
      · rw [occs_updateAt_push_split inc.id (mergedContent ex inc) hex' _ t hlen1, hrem]
      · intro o ho
        exact hrest o (List.mem_of_mem_filter (List.mem_of_mem_filter ho))
    case isFalse hguard =>
      refine ⟨ci, mergedContent ex inc, rest, hocc1, hcontent', ?_⟩
      by_cases hp : isPositionANewer inc (mergedContent ex inc) = true
      · left
        have hcid : Store.colIdAt S ci = Store.colIdAt S t := by
          by_contra hne
          exact hguard ⟨hne, hp⟩
        have hcongr := colIdAt_congr
          (updateAt ci
            (fun c => { c with cards := replaceFirstCard inc.id (mergedContent ex inc) c.cards })
            S) S
          (idTitle_updateAt_replace inc.id (mergedContent ex inc) S ci)
        rw [hcongr ci, hcongr t]
        exact hcid
      · right
        simpa using hp

lemma GoodCard_mergeCard_other (t2 t : Nat) (S : List Column) (inc inc2 : Card)
    (hne : inc2.id ≠ inc.id) (hg : GoodCard S t inc) :
    GoodCard (mergeCard t2 S inc2) t inc := by
  rcases hg with ⟨ci, ex, rest, hocc, hcontent, hpos⟩
  refine ⟨ci, ex, rest, ?_, hcontent, ?_⟩
  · rw [occs_mergeCard_other t2 S inc2 inc.id (Ne.symm hne)]
    exact hocc
  · have hcongr := colIdAt_congr (mergeCard t2 S inc2) S (mergeCard_idTitle t2 S inc2)
    rw [hcongr ci, hcongr t]
    exact hpos

lemma PreCard_mergeCard_other (t2 : Nat) (S : List Column) (inc inc2 : Card)
    (hne : inc2.id ≠ inc.id) (hp : PreCard S inc) :
    PreCard (mergeCard t2 S inc2) inc := by
  unfold PreCard
  rw [occs_mergeCard_other t2 S inc2 inc.id (Ne.symm hne)]
  exact hp

lemma GoodCard_foldl_cards (t' t : Nat) (inc : Card) :
    ∀ (cards : List Card), (∀ k ∈ cards, k.id ≠ inc.id) →
      ∀ S : List Column, GoodCard S t inc →
        GoodCard (cards.foldl (mergeCard t') S) t inc := by
  intro cards
  induction cards with
  | nil => intro _ S hg; exact hg
  | cons k ks ih =>
    intro hne S hg
    rw [List.foldl_cons]
    exact ih (fun x hx => hne x (List.mem_cons_of_mem _ hx)) _
      (GoodCard_mergeCard_other t' t S inc k (hne k (List.mem_cons_self _ _)) hg)

lemma PreCard_foldl_cards (t' : Nat) (inc : Card) :
    ∀ (cards : List Card), (∀ k ∈ cards, k.id ≠ inc.id) →
      ∀ S : List Column, PreCard S inc →
        PreCard (cards.foldl (mergeCard t') S) inc := by
  intro cards
  induction cards with
  | nil => intro _ S hp; exact hp
  | cons k ks ih =>
    intro hne S hp
    rw [List.foldl_cons]
    exact ih (fun x hx => hne x (List.mem_cons_of_mem _ hx)) _
      (PreCard_mergeCard_other t' S inc k (hne k (List.mem_cons_self _ _)) hp)

lemma cardsfold_good (t : Nat) :
    ∀ (cards : List Card) (S : List Column), t < S.length →
      (cards.map (fun k => k.id)).Nodup →
      (∀ k ∈ cards, PreCard S k) →
      ∀ k ∈ cards, GoodCard (cards.foldl (mergeCard t) S) t k := by
  intro cards
  induction cards with
  | nil => intro S _ _ _ k hk; simp at hk
  | cons k0 ks ih =>
    intro S ht hnd hpre k hk
    rw [List.foldl_cons]
    have hnd' : (ks.map (fun k => k.id)).Nodup := (List.nodup_cons.mp (by simpa using hnd)).2
    have hk0notin : k0.id ∉ ks.map (fun k => k.id) :=
      (List.nodup_cons.mp (by simpa using hnd)).1
    rcases List.mem_cons.mp hk with rfl | hk
    · refine GoodCard_foldl_cards t t k ks ?_ _
        (mergeCard_establishes_good t S k ht (hpre k (List.mem_cons_self _ _)))
      intro x hx hcontra
      exact hk0notin (List.mem_map.mpr ⟨x, hx, hcontra⟩)
    · refine ih (mergeCard t S k0) (by rw [mergeCard_length]; exact ht) hnd' ?_ k hk
      intro x hx
      refine PreCard_mergeCard_other t S x k0 ?_ (hpre x (List.mem_cons_of_mem _ hx))
      intro hcontra
      exact hk0notin (List.mem_map.mpr ⟨x, hx, hcontra.symm⟩)

lemma GoodCard_mergeColCards_other (S : List Column) (C : Column) (t : Nat) (inc : Card)
    (hne : ∀ k ∈ C.cards, k.id ≠ inc.id) (hg : GoodCard S t inc) :
    GoodCard (mergeColCards S C) t inc := by
  unfold mergeColCards
  cases resolveTarget S C with
  | none => exact hg
  | some t2 => exact GoodCard_foldl_cards t2 t inc C.cards hne S hg

lemma PreCard_mergeColCards_other (S : List Column) (C : Column) (inc : Card)
    (hne : ∀ k ∈ C.cards, k.id ≠ inc.id) (hp : PreCard S inc) :
    PreCard (mergeColCards S C) inc := by
  unfold mergeColCards
  cases resolveTarget S C with
  | none => exact hp
  | some t2 => exact PreCard_foldl_cards t2 inc C.cards hne S hp

lemma GoodCard_foldl_cols (t : Nat) (inc : Card) :
    ∀ (T : List Column), (∀ C ∈ T, ∀ k ∈ C.cards, k.id ≠ inc.id) →
      ∀ S : List Column, GoodCard S t inc →
        GoodCard (T.foldl mergeColCards S) t inc := by
  intro T
  induction T with
  | nil => intro _ S hg; exact hg
  | cons C T' ih =>
    intro hne S hg
    rw [List.foldl_cons]
    exact ih (fun D hD => hne D (List.mem_cons_of_mem _ hD)) _
      (GoodCard_mergeColCards_other S C t inc (hne C (List.mem_cons_self _ _)) hg)

/-- The master phase-2 induction: with resolvable targets, globally distinct
snapshot card ids and the per-card precondition, every incoming card
satisfies its postcondition in the final merged state. -/
lemma colsfold_good :
    ∀ (T : List Column) (S : List Column),
      (∀ C ∈ T, (resolveTarget S C).isSome = true) →
      (cardIds T).Nodup →
      (∀ C ∈ T, ∀ k ∈ C.cards, PreCard S k) →
      ∀ C ∈ T, ∀ k ∈ C.cards, ∀ t, resolveTarget S C = some t →
        GoodCard (T.foldl mergeColCards S) t k := by
  intro T
  induction T with
  | nil => intro S _ _ _ C hC; simp at hC
  | cons C0 T' ih =>
    intro S hres hnd hpre C hC k hk t hrt
    have hnd0 : (C0.cards.map (fun k => k.id)).Nodup := by
      have : (cardIds (C0 :: T')).Nodup := hnd
      unfold cardIds at this
      rw [List.flatMap_cons] at this
      exact (List.nodup_append.mp this).1
    have hdisj : ∀ k0 ∈ C0.cards, ∀ D ∈ T', ∀ k' ∈ D.cards, k'.id ≠ k0.id := by
      have : (cardIds (C0 :: T')).Nodup := hnd
      unfold cardIds at this
      rw [List.flatMap_cons] at this
      have hd := (List.nodup_append.mp this).2.2
      intro k0 hk0 D hD k' hk' hcontra
      refine hd (List.mem_map.mpr ⟨k0, hk0, rfl⟩) ?_
      refine List.mem_flatMap.mpr ⟨D, hD, ?_⟩
      exact List.mem_map.mpr ⟨k', hk', hcontra⟩
    rw [List.foldl_cons]
    rcases List.mem_cons.mp hC with rfl | hC
    · -- the card belongs to the first column processed
      rcases Option.isSome_iff_exists.mp (hres C (List.mem_cons_self _ _)) with ⟨t0, hrt0⟩
      rw [hrt0] at hrt
      cases hrt
      have hS' : mergeColCards S C = C.cards.foldl (mergeCard t) S := by
        unfold mergeColCards
        rw [hrt0]
      have hgood : GoodCard (mergeColCards S C) t k := by
        rw [hS']
        exact cardsfold_good t C.cards S (resolveTarget_lt S C t hrt0) hnd0
          (fun x hx => hpre C (List.mem_cons_self _ _) x hx) k hk
      refine GoodCard_foldl_cols t k T' ?_ _ hgood
      intro D hD k' hk'
      exact hdisj k hk D hD k' hk'
    · -- the card belongs to a later column
      refine ih (mergeColCards S C0) ?_ ?_ ?_ C hC k hk t ?_
      · intro D hD
        rw [resolveTarget_congr (mergeColCards S C0) S (mergeColCards_idTitle S C0) D]
        exact hres D (List.mem_cons_of_mem _ hD)
      · have : (cardIds (C0 :: T')).Nodup := hnd
        unfold cardIds at this
        rw [List.flatMap_cons] at this
        exact (List.nodup_append.mp this).2.1
      · intro D hD k' hk'
        refine PreCard_mergeColCards_other S C0 k' ?_ (hpre D (List.mem_cons_of_mem _ hD) k' hk')
        intro x hx
        exact Ne.symm (hdisj x hx D hD k' hk')
      · rw [resolveTarget_congr (mergeColCards S C0) S (mergeColCards_idTitle S C0) C]
        exact hrt

lemma phase1_append :
    ∀ (L S : List Column), ∃ P, L.foldl addColIfUnmatched S = S ++ P ∧ ∀ Q ∈ P, Q ∈ L := by
  intro L
  induction L with
  | nil => intro S; exact ⟨[], by simp, by simp⟩
  | cons C L' ih =>
    intro S
    rw [List.foldl_cons]
    cases hres : resolveTarget S C with
    | some t =>
      have hstep : addColIfUnmatched S C = S := by
        unfold addColIfUnmatched
        rw [hres]
      rw [hstep]
      rcases ih S with ⟨P, h1, h2⟩
      exact ⟨P, h1, fun Q hQ => List.mem_cons_of_mem _ (h2 Q hQ)⟩
    | none =>
      have hstep : addColIfUnmatched S C = S ++ [C] := by
        unfold addColIfUnmatched
        rw [hres]
      rw [hstep]
      rcases ih (S ++ [C]) with ⟨P, h1, h2⟩
      refine ⟨[C] ++ P, by rw [h1, List.append_assoc], ?_⟩
      intro Q hQ
      rcases List.mem_append.mp hQ with hQ | hQ
      · simp only [List.mem_singleton] at hQ
        exact hQ ▸ List.mem_cons_self _ _
      · exact List.mem_cons_of_mem _ (h2 Q hQ)

lemma occs_length_count (cid : String) :
    ∀ cols : List Column, (occs cols cid).length = (cardIds cols).count cid := by
  intro cols
  induction cols with
  | nil => simp [occs_nil, cardIds]
  | cons c cs ih =>
    rw [occs_cons]
    unfold cardIds
    rw [List.flatMap_cons]
    rw [List.count_append, List.length_append, List.length_map, List.length_map, ih]
    have : (c.cards.map (fun k => k.id)).count cid
        = (c.cards.filter (fun x => x.id == cid)).length := by
      rw [List.count_eq_countP]
      rw [List.countP_map]
      rw [List.countP_eq_length_filter]
      rfl
    rw [this]
    rfl

lemma mem_occs_elim (cid : String) :
    ∀ (cols : List Column) (o : Nat × Card), o ∈ occs cols cid →
      ∃ Q ∈ cols, o.2 ∈ Q.cards ∧ o.2.id = cid := by
  intro cols
  induction cols with
  | nil => intro o ho; simp [occs_nil] at ho
  | cons c cs ih =>
    intro o ho
    rw [occs_cons] at ho
    rcases List.mem_append.mp ho with ho | ho
    · rcases List.mem_map.mp ho with ⟨k, hk, rfl⟩
      exact ⟨c, List.mem_cons_self _ _, List.mem_filter.mp hk |>.1,
        by simpa using List.of_mem_filter hk⟩
    · rcases List.mem_map.mp ho with ⟨p, hp, rfl⟩
      rcases ih p hp with ⟨Q, hQ, h1, h2⟩
      exact ⟨Q, List.mem_cons_of_mem _ hQ, h1, h2⟩

lemma mem_occs_exists (cid : String) :
    ∀ (cols : List Column) (Q : Column), Q ∈ cols → ∀ k ∈ Q.cards, k.id = cid →
      ∃ o ∈ occs cols cid, o.2 = k := by
  intro cols
  induction cols with
  | nil => intro Q hQ; simp at hQ
  | cons c cs ih =>
    intro Q hQ k hk hkid
    rcases List.mem_cons.mp hQ with rfl | hQ
    · refine ⟨(0, k), ?_, rfl⟩
      rw [occs_cons]
      refine List.mem_append.mpr (Or.inl ?_)
      exact List.mem_map.mpr ⟨k, List.mem_filter.mpr ⟨hk, by simp [hkid]⟩, rfl⟩
    · rcases ih Q hQ k hk hkid with ⟨o, ho, ho2⟩
      refine ⟨(o.1 + 1, o.2), ?_, ho2⟩
      rw [occs_cons]
      refine List.mem_append.mpr (Or.inr ?_)
      exact List.mem_map.mpr ⟨o, ho, rfl⟩

lemma eq_of_mem_length_le_one {l : List α} (h : l.length ≤ 1)
    (ha : a ∈ l) (hb : b ∈ l) : a = b := by
  cases l with
  | nil => simp at ha
  | cons x xs =>
    cases xs with
    | nil =>
      simp only [List.mem_singleton] at ha hb
      rw [ha, hb]
    | cons y ys => simp at h

/-- After step 2, every occurrence of an incoming card's id other than the
first one is the incoming card itself: the board part holds at most one
occurrence (board ids are unique), and every pushed-column occurrence is the
unique snapshot card with that id. -/
lemma pre_initial (b s : Board)
    (hb : (cardIds b.columns).Nodup) (hs : (cardIds s.columns).Nodup) :
    ∀ C ∈ s.columns, ∀ inc ∈ C.cards,
      PreCard (s.columns.foldl addColIfUnmatched b.columns) inc := by
  obtain ⟨P, hP, hPmem⟩ := phase1_append s.columns b.columns
  intro C hC inc hinc
  have hPocc : ∀ p ∈ occs P inc.id, p.2 = inc := by
    intro p hp
    rcases mem_occs_elim inc.id P p hp with ⟨Q, hQP, hpcard, hpid⟩
    have hQs : Q ∈ s.columns := hPmem Q hQP
    rcases mem_occs_exists inc.id s.columns Q hQs p.2 hpcard hpid with ⟨o', ho', ho'2⟩
    rcases mem_occs_exists inc.id s.columns C hC inc hinc rfl with ⟨oi, hoi, hoi2⟩
    have hlen1 : (occs s.columns inc.id).length ≤ 1 := by
      rw [occs_length_count]
      exact List.nodup_iff_count_le_one.mp hs inc.id
    have heq : o' = oi := eq_of_mem_length_le_one hlen1 ho' hoi
    rw [← ho'2, heq, hoi2]
  have hblen : (occs b.columns inc.id).length ≤ 1 := by
    rw [occs_length_count]
    exact List.nodup_iff_count_le_one.mp hb inc.id
  unfold PreCard
  rw [hP, occs_append]
  intro o ho
  have hos : o ∈ (occs b.columns inc.id
      ++ (occs P inc.id).map (fun p => (p.1 + b.columns.length, p.2))) := by
    exact List.mem_of_mem_drop ho
  cases hob : occs b.columns inc.id with
  | nil =>
    rw [hob, List.nil_append] at ho
    have := List.mem_of_mem_drop ho
    rcases List.mem_map.mp this with ⟨p, hp, rfl⟩
    exact hPocc p hp
  | cons o0 os =>
    have hos0 : os = [] := by
      have := hblen
      rw [hob] at this
      simpa using this
    rw [hob, hos0] at ho
    simp only [List.singleton_append, List.drop_one, List.tail_cons] at ho
    rcases List.mem_map.mp ho with ⟨p, hp, rfl⟩
    exact hPocc p hp

lemma foldl_addCol_id :
    ∀ (L : List Column) (S : List Column),
      (∀ C ∈ L, (resolveTarget S C).isSome = true) →
      L.foldl addColIfUnmatched S = S := by
  intro L
  induction L with
  | nil => intro S _; rfl
  | cons C L' ih =>
    intro S h
    rw [List.foldl_cons]
    have hstep : addColIfUnmatched S C = S := by
      unfold addColIfUnmatched
      rcases Option.isSome_iff_exists.mp (h C (List.mem_cons_self _ _)) with ⟨t, ht⟩
      rw [ht]
    rw [hstep]
    exact ih S (fun D hD => h D (List.mem_cons_of_mem _ hD))

lemma foldl_mergeCard_id (t : Nat) :
    ∀ (cards : List Card) (S : List Column),
      (∀ k ∈ cards, GoodCard S t k) →
      cards.foldl (mergeCard t) S = S := by
  intro cards
  induction cards with
  | nil => intro S _; rfl
  | cons k ks ih =>
    intro S h
    rw [List.foldl_cons, mergeCard_identity t S k (h k (List.mem_cons_self _ _))]
    exact ih S (fun x hx => h x (List.mem_cons_of_mem _ hx))

lemma foldl_mergeColCards_id :
    ∀ (T : List Column) (S : List Column),
      (∀ C ∈ T, ∀ t, resolveTarget S C = some t → ∀ k ∈ C.cards, GoodCard S t k) →
      T.foldl mergeColCards S = S := by
  intro T
  induction T with
  | nil => intro S _; rfl
  | cons C T' ih =>
    intro S h
    rw [List.foldl_cons]
    have hstep : mergeColCards S C = S := by
      unfold mergeColCards
      cases hres : resolveTarget S C with
      | none => rfl
      | some t =>
        exact foldl_mergeCard_id t C.cards S (h C (List.mem_cons_self _ _) t hres)
    rw [hstep]
    exact ih S (fun D hD => h D (List.mem_cons_of_mem _ hD))

end Merge

/-- C2: merging the same snapshot into a board twice produces the same board
as merging it once.  The board and the snapshot are assumed to satisfy the
data-model invariant that a card id is unique across a whole board. -/
theorem merge_idempotent (b s : Board)
    (hb : (Merge.cardIds b.columns).Nodup) (hs : (Merge.cardIds s.columns).Nodup) :
    Merge.mergeBoard (Merge.mergeBoard b s) s = Merge.mergeBoard b s := by
  have hres0 : ∀ C ∈ s.columns,
      (Merge.resolveTarget (s.columns.foldl Merge.addColIfUnmatched b.columns) C).isSome
        = true :=
    fun C hC => Merge.phase1_resolvable s.columns b.columns C hC
  have hMproj : (s.columns.foldl Merge.mergeColCards
        (s.columns.foldl Merge.addColIfUnmatched b.columns)).map (fun c => (c.id, c.title))
      = (s.columns.foldl Merge.addColIfUnmatched b.columns).map (fun c => (c.id, c.title)) :=
    Merge.foldl_mergeColCards_idTitle s.columns _
  have hresM : ∀ C ∈ s.columns,
      Merge.resolveTarget (s.columns.foldl Merge.mergeColCards
        (s.columns.foldl Merge.addColIfUnmatched b.columns)) C
      = Merge.resolveTarget (s.columns.foldl Merge.addColIfUnmatched b.columns) C :=
    fun C _ => Merge.resolveTarget_congr _ _ hMproj C
  have hpre : ∀ C ∈ s.columns, ∀ k ∈ C.cards,
      Merge.PreCard (s.columns.foldl Merge.addColIfUnmatched b.columns) k :=
    Merge.pre_initial b s hb hs
  have hgood : ∀ C ∈ s.columns, ∀ k ∈ C.cards, ∀ t,
      Merge.resolveTarget (s.columns.foldl Merge.addColIfUnmatched b.columns) C = some t →
      Merge.GoodCard (s.columns.foldl Merge.mergeColCards
        (s.columns.foldl Merge.addColIfUnmatched b.columns)) t k :=
    Merge.colsfold_good s.columns _ hres0 hs hpre
  show Merge.mergeBoard
      ⟨s.columns.foldl Merge.mergeColCards (s.columns.foldl Merge.addColIfUnmatched b.columns)⟩ s
    = ⟨s.columns.foldl Merge.mergeColCards (s.columns.foldl Merge.addColIfUnmatched b.columns)⟩
  unfold Merge.mergeBoard
  dsimp only
  have h1 : s.columns.foldl Merge.addColIfUnmatched
      (s.columns.foldl Merge.mergeColCards (s.columns.foldl Merge.addColIfUnmatched b.columns))
      = s.columns.foldl Merge.mergeColCards (s.columns.foldl Merge.addColIfUnmatched b.columns) := by
    refine Merge.foldl_addCol_id s.columns _ ?_
    intro C hC
    rw [hresM C hC]
    exact hres0 C hC
  rw [h1]
  refine congrArg Board.mk ?_
  refine Merge.foldl_mergeColCards_id s.columns _ ?_
  intro C hC t hrt k hk
  refine hgood C hC k hk t ?_
  rw [← hresM C hC]
  exact hrt

/-- Witness for C2 at a concrete board and snapshot with overlapping and new
cards: the double merge equals the single merge. -/
theorem merge_idempotent_witness :
    Merge.mergeBoard (Merge.mergeBoard
        ⟨[⟨"a", "A", [⟨"x", "X", "", [], "", none, some 10, some 10, "c1", some 1,
            some 10, some 10⟩], false, false⟩]⟩
        ⟨[⟨"b", "B", [⟨"x", "Xv2", "", [], "", none, some 10, some 20, "c2", some 2,
            some 20, some 20⟩,
          ⟨"y", "Y", "", [], "", none, some 5, some 5, "c2", some 3, some 5, some 5⟩],
          false, false⟩]⟩)
        ⟨[⟨"b", "B", [⟨"x", "Xv2", "", [], "", none, some 10, some 20, "c2", some 2,
            some 20, some 20⟩,
          ⟨"y", "Y", "", [], "", none, some 5, some 5, "c2", some 3, some 5, some 5⟩],
          false, false⟩]⟩
      = Merge.mergeBoard
        ⟨[⟨"a", "A", [⟨"x", "X", "", [], "", none, some 10, some 10, "c1", some 1,
            some 10, some 10⟩], false, false⟩]⟩
        ⟨[⟨"b", "B", [⟨"x", "Xv2", "", [], "", none, some 10, some 20, "c2", some 2,
            some 20, some 20⟩,
          ⟨"y", "Y", "", [], "", none, some 5, some 5, "c2", some 3, some 5, some 5⟩],
          false, false⟩]⟩ :=
  merge_idempotent _ _ (by decide) (by decide)
